import Mathlib

/-!
Verification development for the ZeroMQ transport core of `savant-rs`
(`src/savant_core/src/transport/zeromq.rs`).

Shallow embedding conventions:
* Rust `Vec<u8>` byte strings are modelled as `List Nat`.
* Rust functions that can panic are modelled as `Option`-returning
  functions (`none` = panic); fallible functions return `Except`.
* `hashbrown::HashMap<Vec<u8>, Vec<u8>>` is modelled as an association
  list with unique keys (uniqueness is proved as an invariant).
* `lru::LruCache<(Vec<u8>, Vec<u8>), ()>` is modelled as a list of keys
  ordered from most- to least-recently used; `put` of a fresh key at
  capacity drops the last (least recently used) element, `put` of a
  present key moves it to the front, and `contains` does not touch the
  order (as in the `lru` crate).
-/

namespace SavantZmq

/-- Byte strings (`Vec<u8>` / `&[u8]`). -/
abbrev Bytes := List Nat

/-! ### Generic facts about `List.isPrefixOf` (Rust `starts_with`) -/

theorem isPrefixOf_iff_exists {α : Type} [BEq α] [LawfulBEq α]
    {l₁ l₂ : List α} : l₁.isPrefixOf l₂ = true ↔ ∃ t, l₁ ++ t = l₂ := by
  rw [ List.isPrefixOf_iff_prefix]
  exact Iff.rfl

theorem isPrefixOf_self_append {α : Type} [BEq α] [LawfulBEq α]
    (l₁ l₂ : List α) : l₁.isPrefixOf (l₁ ++ l₂) = true :=
  isPrefixOf_iff_exists.mpr ⟨l₂, rfl⟩

theorem isPrefixOf_comparable {α : Type} [BEq α] [LawfulBEq α]
    {l₁ l₂ l₃ : List α} (h1 : l₁.isPrefixOf l₃ = true)
    (h2 : l₂.isPrefixOf l₃ = true) :
    l₁.isPrefixOf l₂ = true ∨ l₂.isPrefixOf l₁ = true := by
  rcases List.prefix_or_prefix_of_prefix
      ( List.isPrefixOf_iff_prefix.mp h1) ( List.isPrefixOf_iff_prefix.mp h2)
    with hc | hc
  · exact Or.inl ( List.isPrefixOf_iff_prefix.mpr hc)
  · exact Or.inr ( List.isPrefixOf_iff_prefix.mpr hc)

/-! ## RoutingIdFilter (zeromq.rs lines 168-218) -/

/-- State of `RoutingIdFilter`: the per-topic current routing id map `ids`
and the LRU `expired_routing_ids` cache (front = most recently used).
`cap` is the LRU capacity fixed at construction. -/
structure RoutingIdFilter where
  cap : Nat
  ids : List (Bytes × Bytes)
  expired : List (Bytes × Bytes)
  deriving Repr, DecidableEq

/-- Association-list lookup, modelling `HashMap::get` / the read side of
`HashMap::entry`. -/
def lookupId : List (Bytes × Bytes) → Bytes → Option Bytes
  | [], _ => none
  | (k, v) :: rest, t => if k = t then some v else lookupId rest t

/-- In-place value update of every entry with key `t`, modelling
`HashMap::entry(t).and_modify(...)` (keys are unique, so at most one
entry is affected). -/
def updateId : List (Bytes × Bytes) → Bytes → Bytes → List (Bytes × Bytes)
  | [], _, _ => []
  | (k, v) :: rest, t, r => (k, if k = t then r else v) :: updateId rest t r

/-- `LruCache::put` for unit values: an existing key is moved to the
front; a fresh key is pushed at the front, evicting the least recently
used (last) entry when the cache is full. -/
def lruPut (cap : Nat) (k : Bytes × Bytes) (l : List (Bytes × Bytes)) :
    List (Bytes × Bytes) :=
  if k ∈ l then k :: l.erase k
  else if l.length < cap then k :: l
  else k :: l.dropLast

/-- `RoutingIdFilter::new(size)`: fails (returns an error) when
`NonZeroUsize::try_from(size)` fails, i.e. exactly when `size = 0`. -/
def RoutingIdFilter.new (size : Nat) : Option RoutingIdFilter :=
  if size = 0 then none else some ⟨size, [], []⟩

/-- `RoutingIdFilter::allow(topic, routing_id)` (zeromq.rs lines 182-217).
Returns `none` when the Rust code panics: the current id is replaced via
`id.clone_from_slice(routing_id)`, which panics when the two slices have
different lengths. -/
def RoutingIdFilter.allow (f : RoutingIdFilter) (topic : Bytes)
    (routingId : Option Bytes) : Option (Bool × RoutingIdFilter) :=
  match routingId with
  | none => some (true, f)
  | some r =>
    match lookupId f.ids topic with
    | none =>
      -- `entry(topic).or_insert(routing_id)`: the freshly inserted id
      -- equals the received one, so the first comparison succeeds.
      some (true, { f with ids := (topic, r) :: f.ids })
    | some cur =>
      if cur = r then some (true, f)
      else if (topic, r) ∈ f.expired then some (false, f)
      else if r.length = cur.length then
        some (true, { f with
          ids := updateId f.ids topic r,
          expired := lruPut f.cap (topic, cur) f.expired })
      else none

/-- Run a sequence of `allow` calls, threading the filter state;
`none` as soon as one call panics. -/
def runAllow (f : RoutingIdFilter) :
    List (Bytes × Option Bytes) → Option (List Bool × RoutingIdFilter)
  | [] => some ([], f)
  | (t, r) :: rest =>
    match f.allow t r with
    | none => none
    | some (b, f') =>
      match runAllow f' rest with
      | none => none
      | some (bs, f'') => some (b :: bs, f'')

/-! ### Association-list and LRU lemmas -/

theorem lookupId_eq_none {ids : List (Bytes × Bytes)} {t : Bytes} :
    lookupId ids t = none ↔ t ∉ ids.map Prod.fst := by
  induction ids with
  | nil => simp [lookupId]
  | cons p rest ih =>
    obtain ⟨k, v⟩ := p
    by_cases h : k = t
    · subst h
      simp [lookupId]
    · have h' : ¬t = k := fun hh => h hh.symm
      simp [lookupId, h, h', ih]

theorem lookupId_cons_self {ids : List (Bytes × Bytes)} {t r : Bytes} :
    lookupId ((t, r) :: ids) t = some r := by
  simp [lookupId]

theorem lookupId_cons_ne {ids : List (Bytes × Bytes)} {t' k r : Bytes}
    (h : k ≠ t') : lookupId ((k, r) :: ids) t' = lookupId ids t' := by
  simp [lookupId, h]

theorem map_fst_updateId (ids : List (Bytes × Bytes)) (t r : Bytes) :
    (updateId ids t r).map Prod.fst = ids.map Prod.fst := by
  induction ids with
  | nil => rfl
  | cons p rest ih =>
    obtain ⟨k, v⟩ := p
    simp [updateId, ih]

theorem lookupId_updateId_self {ids : List (Bytes × Bytes)} {t c : Bytes}
    (r : Bytes) (h : lookupId ids t = some c) :
    lookupId (updateId ids t r) t = some r := by
  induction ids with
  | nil => simp [lookupId] at h
  | cons p rest ih =>
    obtain ⟨k, v⟩ := p
    by_cases hk : k = t
    · subst hk
      simp [updateId, lookupId]
    · simp only [lookupId, if_neg hk] at h
      simp [updateId, lookupId, hk, ih h]

theorem lookupId_updateId_ne {ids : List (Bytes × Bytes)} {t t' : Bytes}
    (r : Bytes) (h : t' ≠ t) :
    lookupId (updateId ids t r) t' = lookupId ids t' := by
  induction ids with
  | nil => rfl
  | cons p rest ih =>
    obtain ⟨k, v⟩ := p
    by_cases hk : k = t'
    · subst hk
      have : ¬(k = t) := fun hh => h (hh ▸ rfl)
      simp [updateId, lookupId, this]
    · simp [updateId, lookupId, hk, ih]

theorem mem_lruPut {cap : Nat} {k x : Bytes × Bytes} {l : List (Bytes × Bytes)}
    (h : x ∈ lruPut cap k l) : x = k ∨ x ∈ l := by
  unfold lruPut at h
  split at h
  · rw [List.mem_cons] at h
    rcases h with h | h
    · exact Or.inl h
    · exact Or.inr (List.mem_of_mem_erase h)
  · split at h
    · rw [List.mem_cons] at h
      rcases h with h | h
      · exact Or.inl h
      · exact Or.inr h
    · rw [List.mem_cons] at h
      rcases h with h | h
      · exact Or.inl h
      · exact Or.inr (List.mem_of_mem_dropLast h)

/-! ### The filter state invariant (claim C5) -/

/-- The invariant maintained by `RoutingIdFilter.allow`: topic keys are
unique, every expired pair's topic has a current id, and no pair is
simultaneously current and expired. -/
def FilterInv (f : RoutingIdFilter) : Prop :=
  (f.ids.map Prod.fst).Nodup ∧
  (∀ p ∈ f.expired, p.1 ∈ f.ids.map Prod.fst) ∧
  (∀ t c, lookupId f.ids t = some c → (t, c) ∉ f.expired)

/-! ### Branch equations for `allow` (steps 1-5 of the policy) -/

theorem allow_no_id (f : RoutingIdFilter) (t : Bytes) :
    f.allow t none = some (true, f) := rfl

theorem allow_first {f : RoutingIdFilter} {t r : Bytes}
    (h : lookupId f.ids t = none) :
    f.allow t (some r) = some (true, { f with ids := (t, r) :: f.ids }) := by
  unfold RoutingIdFilter.allow
  rw [h]

theorem allow_same {f : RoutingIdFilter} {t r cur : Bytes}
    (h : lookupId f.ids t = some cur) (he : cur = r) :
    f.allow t (some r) = some (true, f) := by
  unfold RoutingIdFilter.allow
  rw [h]
  simp [he]

theorem allow_stale {f : RoutingIdFilter} {t r cur : Bytes}
    (h : lookupId f.ids t = some cur) (hne : cur ≠ r)
    (hm : (t, r) ∈ f.expired) :
    f.allow t (some r) = some (false, f) := by
  unfold RoutingIdFilter.allow
  rw [h]
  simp [hne, hm]

theorem allow_switch {f : RoutingIdFilter} {t r cur : Bytes}
    (h : lookupId f.ids t = some cur) (hne : cur ≠ r)
    (hm : (t, r) ∉ f.expired) (hl : r.length = cur.length) :
    f.allow t (some r) =
      some (true,
        { f with
            ids := updateId f.ids t r,
            expired := lruPut f.cap (t, cur) f.expired }) := by
  unfold RoutingIdFilter.allow
  rw [h]
  simp [hne, hm, hl]

theorem allow_panic {f : RoutingIdFilter} {t r cur : Bytes}
    (h : lookupId f.ids t = some cur) (hne : cur ≠ r)
    (hm : (t, r) ∉ f.expired) (hl : ¬r.length = cur.length) :
    f.allow t (some r) = none := by
  unfold RoutingIdFilter.allow
  rw [h]
  simp [hne, hm, hl]

theorem runAllow_cons (f : RoutingIdFilter) (t : Bytes) (r : Option Bytes)
    (rest : List (Bytes × Option Bytes)) :
    runAllow f ((t, r) :: rest) =
      match f.allow t r with
      | none => none
      | some (b, f') =>
        match runAllow f' rest with
        | none => none
        | some (bs, f'') => some (b :: bs, f'') := rfl

theorem allow_preserves_inv {f f' : RoutingIdFilter} {t : Bytes}
    {r : Option Bytes} {b : Bool} (hinv : FilterInv f)
    (h : f.allow t r = some (b, f')) : FilterInv f' := by
  obtain ⟨hnodup, haux, hcur⟩ := hinv
  rcases r with - | rid
  · rw [allow_no_id] at h
    simp only [Option.some.injEq, Prod.mk.injEq] at h
    obtain ⟨-, rfl⟩ := h
    exact ⟨hnodup, haux, hcur⟩
  cases hlk : lookupId f.ids t with
  | none =>
    rw [allow_first hlk] at h
    simp only [Option.some.injEq, Prod.mk.injEq] at h
    obtain ⟨-, rfl⟩ := h
    have hnotkey : t ∉ f.ids.map Prod.fst := lookupId_eq_none.mp hlk
    refine ⟨?_, ?_, ?_⟩
    · rw [List.map_cons, List.nodup_cons]
      exact ⟨hnotkey, hnodup⟩
    · intro p hp
      simp only [List.map_cons, List.mem_cons]
      exact Or.inr (haux p hp)
    · intro t' c' hl
      by_cases ht : t = t'
      · subst ht
        intro hmem
        exact hnotkey (haux _ hmem)
      · rw [lookupId_cons_ne ht] at hl
        exact hcur t' c' hl
  | some cur =>
    by_cases h1 : cur = rid
    · rw [allow_same hlk h1] at h
      simp only [Option.some.injEq, Prod.mk.injEq] at h
      obtain ⟨-, rfl⟩ := h
      exact ⟨hnodup, haux, hcur⟩
    by_cases h2 : (t, rid) ∈ f.expired
    · rw [allow_stale hlk h1 h2] at h
      simp only [Option.some.injEq, Prod.mk.injEq] at h
      obtain ⟨-, rfl⟩ := h
      exact ⟨hnodup, haux, hcur⟩
    by_cases h3 : rid.length = cur.length
    · rw [allow_switch hlk h1 h2 h3] at h
      simp only [Option.some.injEq, Prod.mk.injEq] at h
      obtain ⟨-, rfl⟩ := h
      refine ⟨?_, ?_, ?_⟩
      · simpa [map_fst_updateId] using hnodup
      · intro p hp
        simp only [map_fst_updateId]
        rcases mem_lruPut hp with hk | hk
        · subst hk
          by_contra hno
          rw [← lookupId_eq_none] at hno
          simp [hlk] at hno
        · exact haux p hk
      · intro t' c' hl hmem
        by_cases ht : t' = t
        · subst ht
          rw [lookupId_updateId_self rid hlk] at hl
          simp only [Option.some.injEq] at hl
          subst hl
          rcases mem_lruPut hmem with hk | hk
          · exact h1 (by injection hk with _ h'; exact h'.symm)
          · exact h2 hk
        · rw [lookupId_updateId_ne rid ht] at hl
          rcases mem_lruPut hmem with hk | hk
          · exact ht (by injection hk)
          · exact hcur t' c' hl hk
    · rw [allow_panic hlk h1 h2 h3] at h
      exact absurd h (by simp)

theorem runAllow_preserves_inv {f f' : RoutingIdFilter}
    {calls : List (Bytes × Option Bytes)} {bs : List Bool}
    (hinv : FilterInv f) (h : runAllow f calls = some (bs, f')) :
    FilterInv f' := by
  induction calls generalizing f bs with
  | nil =>
    simp only [runAllow, Option.some.injEq, Prod.mk.injEq] at h
    obtain ⟨-, rfl⟩ := h
    exact hinv
  | cons c rest ih =>
    obtain ⟨t, r⟩ := c
    simp only [runAllow] at h
    cases ha : f.allow t r with
    | none =>
      rw [ha] at h
      exact absurd h (by simp)
    | some p =>
      obtain ⟨b, f₁⟩ := p
      rw [ha] at h
      dsimp only at h
      cases hr : runAllow f₁ rest with
      | none =>
        rw [hr] at h
        exact absurd h (by simp)
      | some q =>
        obtain ⟨bs₁, f₂⟩ := q
        rw [hr] at h
        simp only [Option.some.injEq, Prod.mk.injEq] at h
        obtain ⟨-, rfl⟩ := h
        exact ih (allow_preserves_inv hinv ha) hr

/-- C5: for every sequence of `RoutingIdFilter::allow` calls that returns
normally, starting from a freshly constructed filter, no `(topic, id)`
pair is simultaneously the current identity for that topic and a member
of the expired LRU set, and the current-id map has at most one entry per
topic (its keys are unique). -/
theorem c5_filter_invariant (size : Nat) (f0 f : RoutingIdFilter)
    (calls : List (Bytes × Option Bytes)) (bs : List Bool)
    (hnew : RoutingIdFilter.new size = some f0)
    (hrun : runAllow f0 calls = some (bs, f)) :
    (∀ t c, lookupId f.ids t = some c → (t, c) ∉ f.expired) ∧
    (f.ids.map Prod.fst).Nodup := by
  have h0 : FilterInv f0 := by
    unfold RoutingIdFilter.new at hnew
    split at hnew
    · exact absurd hnew (by simp)
    · simp only [Option.some.injEq] at hnew
      subst hnew
      exact ⟨by simp, by simp, by simp [lookupId]⟩
  obtain ⟨hnodup, -, hcur⟩ := runAllow_preserves_inv h0 hrun
  exact ⟨hcur, hnodup⟩

/-! ### Single-topic identity-switch runs (claim C6) -/

/-- State of the filter after the single-byte ids `[0], [1], ..., [k]`
have been presented in order on topic `t` (capacity `cap ≥ 1`): the
current id is `[k]` and the expired LRU holds the `min k cap` most
recently replaced ids, most recent first. -/
def switchState (cap : Nat) (t : Bytes) (k : Nat) : RoutingIdFilter :=
  ⟨cap, [(t, [k])], (List.range (min k cap)).map fun i => (t, [k - 1 - i])⟩

theorem lruPut_switch (cap : Nat) (t : Bytes) (k : Nat) (hcap : 1 ≤ cap) :
    lruPut cap (t, [k])
        ((List.range (min k cap)).map fun i => (t, ([k - 1 - i] : Bytes))) =
      (List.range (min (k + 1) cap)).map fun i => (t, ([k - i] : Bytes)) := by
  have hnot : (t, ([k] : Bytes)) ∉
      (List.range (min k cap)).map fun i => (t, ([k - 1 - i] : Bytes)) := by
    simp only [List.mem_map, List.mem_range]
    rintro ⟨i, hi, heq⟩
    have h2 : k - 1 - i = k := by simpa using congrArg (fun p => p.2) heq
    omega
  unfold lruPut
  rw [if_neg hnot, List.length_map, List.length_range]
  rcases Nat.lt_or_ge k cap with hk | hk
  · have hmin : min k cap = k := by omega
    have hmin2 : min (k + 1) cap = k + 1 := by omega
    rw [hmin, hmin2, if_pos (by omega), List.range_succ_eq_map,
      List.map_cons, List.map_map]
    refine congrArg₂ List.cons ?_ ?_
    · simp
    · apply List.map_congr_left
      intro a ha
      simp only [Function.comp_apply, Nat.succ_eq_add_one]
      have h3 : k - 1 - a = k - (a + 1) := by omega
      rw [h3]
  · have hmin : min k cap = cap := by omega
    have hmin2 : min (k + 1) cap = cap := by omega
    rw [hmin, hmin2, if_neg (by omega)]
    obtain ⟨c, rfl⟩ : ∃ c, cap = c + 1 := ⟨cap - 1, by omega⟩
    have hdrop :
        ((List.range (c + 1)).map fun i => (t, ([k - 1 - i] : Bytes))).dropLast =
          (List.range c).map fun i => (t, ([k - 1 - i] : Bytes)) := by
      rw [List.range_succ, List.map_append]
      simp only [List.map_cons, List.map_nil]
      exact List.dropLast_concat
    rw [hdrop, List.range_succ_eq_map, List.map_cons, List.map_map]
    refine congrArg₂ List.cons ?_ ?_
    · simp
    · apply List.map_congr_left
      intro a ha
      simp only [Function.comp_apply, Nat.succ_eq_add_one]
      have h3 : k - 1 - a = k - (a + 1) := by omega
      rw [h3]

theorem allow_switchState (cap : Nat) (t : Bytes) (k : Nat) (hcap : 1 ≤ cap) :
    (switchState cap t k).allow t (some [k + 1]) =
      some (true, switchState cap t (k + 1)) := by
  have hlk : lookupId (switchState cap t k).ids t = some [k] := by
    simp [switchState, lookupId]
  have hne : ([k] : Bytes) ≠ [k + 1] := by simp
  have hmem : (t, ([k + 1] : Bytes)) ∉ (switchState cap t k).expired := by
    simp only [switchState, List.mem_map, List.mem_range]
    rintro ⟨i, hi, heq⟩
    have h2 : k - 1 - i = k + 1 := by simpa using congrArg (fun p => p.2) heq
    omega
  have hids : updateId [(t, ([k] : Bytes))] t [k + 1] = [(t, ([k + 1] : Bytes))] := by
    simp [updateId]
  have hexp : lruPut cap (t, ([k] : Bytes))
      ((List.range (min k cap)).map fun i => (t, ([k - 1 - i] : Bytes))) =
      (List.range (min (k + 1) cap)).map fun i => (t, ([k + 1 - 1 - i] : Bytes)) := by
    rw [lruPut_switch cap t k hcap]
    apply List.map_congr_left
    intro a ha
    have h3 : k - a = k + 1 - 1 - a := by omega
    rw [h3]
  rw [allow_switch hlk hne hmem (by simp)]
  refine congrArg some (congrArg (Prod.mk true) ?_)
  show (⟨cap, updateId [(t, [k])] t [k + 1],
      lruPut cap (t, [k])
        ((List.range (min k cap)).map fun i => (t, [k - 1 - i]))⟩ :
    RoutingIdFilter) = switchState cap t (k + 1)
  rw [hids, hexp]
  rfl

theorem runAllow_switchRun (cap : Nat) (t : Bytes) (hcap : 1 ≤ cap) :
    ∀ n k, runAllow (switchState cap t k)
        ((List.range' (k + 1) n).map fun i => (t, some [i])) =
      some (List.replicate n true, switchState cap t (k + n)) := by
  intro n
  induction n with
  | zero =>
    intro k
    simp [runAllow]
  | succ n ih =>
    intro k
    rw [List.range'_succ]
    simp only [List.map_cons]
    simp only [runAllow]
    rw [allow_switchState cap t k hcap]
    dsimp only
    rw [ih (k + 1)]
    have h5 : k + 1 + n = k + (n + 1) := by omega
    rw [h5]
    simp [List.replicate_succ]

/-- C6: the expired set is an LRU of fixed capacity `cap`.  With
`cap + 1` distinct identity switches on one topic (ids `[0] … [cap+1]`,
which insert the `cap + 1` distinct pairs `(t,[0]) … (t,[cap])` into the
expired cache), every call is allowed, the expired set is capped at
`cap` entries, the oldest expired entry `(t, [0])` has been evicted, and
presenting the evicted identity `[0]` again is re-admitted
(`allow` returns `true`) instead of being denied. -/
theorem c6_lru_eviction_readmits (cap : Nat) (t : Bytes) (hcap : 1 ≤ cap) :
    runAllow ⟨cap, [], []⟩ ((List.range (cap + 2)).map fun i => (t, some [i])) =
      some (List.replicate (cap + 2) true, switchState cap t (cap + 1)) ∧
    (switchState cap t (cap + 1)).expired.length = cap ∧
    (t, ([0] : Bytes)) ∉ (switchState cap t (cap + 1)).expired ∧
    ((switchState cap t (cap + 1)).allow t (some [0])).map Prod.fst =
      some true := by
  have hmem0 : (t, ([0] : Bytes)) ∉ (switchState cap t (cap + 1)).expired := by
    simp only [switchState, List.mem_map, List.mem_range]
    rintro ⟨i, hi, heq⟩
    have h2 : cap + 1 - 1 - i = 0 := by simpa using congrArg (fun p => p.2) heq
    omega
  refine ⟨?_, ?_, hmem0, ?_⟩
  · rw [List.range_eq_range', List.range'_succ]
    simp only [List.map_cons]
    rw [runAllow_cons]
    have h0 : RoutingIdFilter.allow ⟨cap, [], []⟩ t (some [0]) =
        some (true, switchState cap t 0) := by
      rw [allow_first (by simp [lookupId])]
      simp [switchState]
    rw [h0]
    dsimp only
    rw [runAllow_switchRun cap t hcap (cap + 1) 0]
    have h6 : 0 + (cap + 1) = cap + 1 := by omega
    rw [h6]
    simp [List.replicate_succ]
  · simp only [switchState]
    rw [List.length_map, List.length_range]
    omega
  · have hlk : lookupId (switchState cap t (cap + 1)).ids t = some [cap + 1] := by
      simp [switchState, lookupId]
    have hne : ([cap + 1] : Bytes) ≠ [0] := by simp
    rw [allow_switch hlk hne hmem0 (by simp)]
    simp

/-! ### Claim theorems C1, C5 witness, C7 -/

/-- C1: the five-step allow policy.  The concrete part of the claim holds:
with capacity 2 the sequence `allow(T1,None), allow(T1,R1), allow(T1,R2),
allow(T1,R1), allow(T1,R2)` returns `T,T,T,F,T`, and interleaved with the
same sequence on a second topic `T2` both topics see `T,T,T,F,T`
independently.  The general step 5 of the policy, however, is broken in
the code: replacing the current id is done with
`id.clone_from_slice(routing_id)`, which panics when the new id's byte
length differs from the current id's, instead of installing the new id
and allowing — the last conjunct evaluates the code at such an input
(current id `[4,5,6]`, new id `[7,8]`) and shows the call panics
(`none`) rather than returning `true`. -/
theorem c1_five_step_policy_with_panic :
    RoutingIdFilter.new 2 = some ⟨2, [], []⟩ ∧
    (runAllow ⟨2, [], []⟩
      [([1, 2, 3], none), ([1, 2, 4], none),
       ([1, 2, 3], some [4, 5, 6]), ([1, 2, 4], some [4, 5, 6]),
       ([1, 2, 3], some [7, 8, 9]), ([1, 2, 4], some [7, 8, 9]),
       ([1, 2, 3], some [4, 5, 6]), ([1, 2, 4], some [4, 5, 6]),
       ([1, 2, 3], some [7, 8, 9]), ([1, 2, 4], some [7, 8, 9])]).map
        Prod.fst =
      some [true, true, true, true, true, true, false, false, true, true] ∧
    runAllow ⟨2, [], []⟩
      [([1, 2, 3], some [4, 5, 6]), ([1, 2, 3], some [7, 8])] = none := by
  refine ⟨rfl, ?_, ?_⟩ <;> decide

/-- Witness for C5 at a concrete run: capacity 2, calls
`allow([1],[2]), allow([1],[3]), allow([1],[2])` end in the state
`ids = [([1],[3])]`, `expired = [([1],[2])]`, which satisfies the
invariant. -/
theorem c5_filter_invariant_witness :
    (∀ t c, lookupId [(([1] : Bytes), ([3] : Bytes))] t = some c →
      (t, c) ∉ [(([1] : Bytes), ([2] : Bytes))]) ∧
    (([(([1] : Bytes), ([3] : Bytes))].map Prod.fst).Nodup) :=
  c5_filter_invariant 2 ⟨2, [], []⟩ ⟨2, [([1], [3])], [([1], [2])]⟩
    [([1], some [2]), ([1], some [3]), ([1], some [2])]
    [true, true, false] rfl rfl

/-- C7: `RoutingIdFilter::allow` is not total.  When a new routing id is
accepted for a topic and its byte length differs from the currently
recorded id's, the update `id.clone_from_slice(routing_id)` panics
("source slice length does not match destination slice length"): on a
fresh filter of capacity 512, `allow([9], Some([1,2]))` succeeds and
`allow([9], Some([3]))` then panics (`none`), while the same-length
variant `allow([9], Some([3,4]))` returns normally. -/
theorem c7_allow_panics_on_length_mismatch :
    RoutingIdFilter.new 512 = some ⟨512, [], []⟩ ∧
    runAllow ⟨512, [], []⟩ [([9], some [1, 2]), ([9], some [3])] = none ∧
    (runAllow ⟨512, [], []⟩
      [([9], some [1, 2]), ([9], some [3, 4])]).isSome = true := by
  refine ⟨rfl, ?_, ?_⟩ <;> decide

/-- Witness for C6 at capacity 2 and topic `[7]`: ids `[0],[1],[2],[3]`
are all allowed, the pair `([7],[0])` has been evicted from the expired
LRU, and presenting `[0]` again is allowed. -/
theorem c6_lru_eviction_readmits_witness :
    runAllow ⟨2, [], []⟩ ((List.range 4).map fun i => (([7] : Bytes), some [i])) =
      some (List.replicate 4 true, switchState 2 [7] 3) ∧
    (switchState 2 [7] 3).expired.length = 2 ∧
    (([7] : Bytes), ([0] : Bytes)) ∉ (switchState 2 [7] 3).expired ∧
    ((switchState 2 [7] 3).allow [7] (some [0])).map Prod.fst = some true :=
  c6_lru_eviction_readmits 2 [7] (by decide)

/-! ## TopicPrefixSpec (zeromq.rs lines 131-166, claim C8) -/

/-- `TopicPrefixSpec`.  The source constructor names are `SourceId`,
`Prefix` and `None`; the second is rendered `pfx` here because `prefix`
is a reserved keyword in Lean, and the third `noneSpec` to avoid
shadowing `Option.none`. -/
inductive TopicPrefixSpec where
  | sourceId (s : Bytes)
  | pfx (s : Bytes)
  | noneSpec
  deriving Repr, DecidableEq

/-- `TopicPrefixSpec::matches(topic)`: byte equality for `SourceId`,
`topic.starts_with(...)` for `Prefix`, unconditional `true` for `None`. -/
def TopicPrefixSpec.matches : TopicPrefixSpec → Bytes → Bool
  | .sourceId s, topic => topic == s
  | .pfx p, topic => p.isPrefixOf topic
  | .noneSpec, _ => true

/-- ASCII string to byte-string helper for concrete topics. -/
def strBytes (s : String) : Bytes := s.toList.map Char.toNat

/-- C8: `matches` is byte-equality for `SourceId`, byte-prefix for
`Prefix` and constantly true for `None`, together with the concrete
examples from the claim: `SourceId "src"` accepts `"src"` but not
`"src2"` or `"src/x"`; `Prefix "pre"` accepts `"pre"`, `"pre/x"`,
`"pre/x/y"` but not `"pr"`; `None` accepts all of them. -/
theorem c8_topic_matching :
    (∀ s t : Bytes, (TopicPrefixSpec.sourceId s).matches t = true ↔ t = s) ∧
    (∀ p t : Bytes, (TopicPrefixSpec.pfx p).matches t = true ↔
      ∃ u, p ++ u = t) ∧
    (∀ t : Bytes, TopicPrefixSpec.noneSpec.matches t = true) ∧
    ((TopicPrefixSpec.sourceId (strBytes "src")).matches (strBytes "src") = true ∧
     (TopicPrefixSpec.sourceId (strBytes "src")).matches (strBytes "src2") = false ∧
     (TopicPrefixSpec.sourceId (strBytes "src")).matches (strBytes "src/x") = false) ∧
    ((TopicPrefixSpec.pfx (strBytes "pre")).matches (strBytes "pre") = true ∧
     (TopicPrefixSpec.pfx (strBytes "pre")).matches (strBytes "pre/x") = true ∧
     (TopicPrefixSpec.pfx (strBytes "pre")).matches (strBytes "pre/x/y") = true ∧
     (TopicPrefixSpec.pfx (strBytes "pre")).matches (strBytes "pr") = false) ∧
    (TopicPrefixSpec.noneSpec.matches (strBytes "src2") = true ∧
     TopicPrefixSpec.noneSpec.matches (strBytes "pr") = true) := by
  refine ⟨?_, ?_, ?_, ?_, ?_, ?_⟩
  · intro s t
    simp [TopicPrefixSpec.matches]
  · intro p t
    simp only [TopicPrefixSpec.matches]
    exact isPrefixOf_iff_exists
  · intro t
    rfl
  · exact ⟨by decide, by decide, by decide⟩
  · exact ⟨by decide, by decide, by decide, by decide⟩
  · exact ⟨rfl, rfl⟩

/-- Witness for C8 applying the general clauses at concrete inputs. -/
theorem c8_topic_matching_witness :
    ((TopicPrefixSpec.sourceId ([5, 6] : Bytes)).matches [5, 6] = true ↔
      ([5, 6] : Bytes) = [5, 6]) ∧
    ((TopicPrefixSpec.pfx ([5] : Bytes)).matches [5, 6] = true ↔
      ∃ u, ([5] : Bytes) ++ u = [5, 6]) ∧
    TopicPrefixSpec.noneSpec.matches ([9] : Bytes) = true :=
  ⟨c8_topic_matching.1 [5, 6] [5, 6], c8_topic_matching.2.1 [5] [5, 6],
    c8_topic_matching.2.2.1 [9]⟩

/-! ## Mock socket (zeromq.rs lines 220-355, claim C9) -/

/-- Frames on the wire: a list of byte strings. -/
abbrev Frames := List Bytes

/-- The mock variant of `Socket`: an in-memory frame buffer.  The
`ZmqSocket` variant delegates to the external libzmq and is outside the
model. -/
structure MockSocket where
  buffer : Frames
  deriving Repr, DecidableEq

/-- A `MockSocketResponder` is a function that may rewrite the buffer
after a send; the trait's default `fix` (used by `NoopResponder`) leaves
the buffer unchanged. -/
def noopResponderFix : Frames → Frames := fun data => data

/-- `Socket::send_multipart` on the mock: clear the buffer, extend it
with the supplied parts, then let the responder fix it up; returns Ok. -/
def MockSocket.send_multipart (fix : Frames → Frames) (_s : MockSocket)
    (parts : Frames) : MockSocket :=
  ⟨fix parts⟩

/-- `Socket::send` on the mock: clear, push the single frame, fix. -/
def MockSocket.send (fix : Frames → Frames) (_s : MockSocket)
    (m : Bytes) : MockSocket :=
  ⟨fix [m]⟩

/-- `Socket::recv_multipart` on the mock: `mem::take(data)` — returns the
buffer and leaves it empty. -/
def MockSocket.recv_multipart (s : MockSocket) : Frames × MockSocket :=
  (s.buffer, ⟨[]⟩)

/-- Option setters on the mock socket all return `Ok(())` and cannot
touch the buffer (they take `&self`). -/
def MockSocket.set_rcvhwm (s : MockSocket) (_hwm : Int) :
    Except Unit Unit × MockSocket := (.ok (), s)

def MockSocket.set_sndhwm (s : MockSocket) (_hwm : Int) :
    Except Unit Unit × MockSocket := (.ok (), s)

def MockSocket.set_rcvtimeo (s : MockSocket) (_timeout : Int) :
    Except Unit Unit × MockSocket := (.ok (), s)

def MockSocket.set_sndtimeo (s : MockSocket) (_timeout : Int) :
    Except Unit Unit × MockSocket := (.ok (), s)

def MockSocket.set_linger (s : MockSocket) (_linger : Int) :
    Except Unit Unit × MockSocket := (.ok (), s)

def MockSocket.set_subscribe (s : MockSocket) (_pre : Bytes) :
    Except Unit Unit × MockSocket := (.ok (), s)

/-- C9: on the mock socket with the no-op responder, `send_multipart`
followed by `recv_multipart` returns exactly the sent frames; a second
`recv_multipart` returns the empty list (the buffer is drained); a later
send replaces whatever the buffer held; every option setter returns `Ok`
and leaves the socket (hence the buffer) unchanged. -/
theorem c9_mock_socket_roundtrip :
    (∀ (s : MockSocket) (fs : Frames),
      ((s.send_multipart noopResponderFix fs).recv_multipart).1 = fs) ∧
    (∀ (s : MockSocket) (fs : Frames),
      (((s.send_multipart noopResponderFix fs).recv_multipart).2.recv_multipart).1
        = []) ∧
    (∀ (s : MockSocket) (fs : Frames),
      (s.send_multipart noopResponderFix fs).buffer = fs) ∧
    (∀ (s : MockSocket) (hwm : Int),
      s.set_rcvhwm hwm = (.ok (), s) ∧ s.set_sndhwm hwm = (.ok (), s) ∧
      s.set_rcvtimeo hwm = (.ok (), s) ∧ s.set_sndtimeo hwm = (.ok (), s) ∧
      s.set_linger hwm = (.ok (), s)) ∧
    (∀ (s : MockSocket) (p : Bytes), s.set_subscribe p = (.ok (), s)) := by
  exact ⟨fun s fs => rfl, fun s fs => rfl, fun s fs => rfl,
    fun s hwm => ⟨rfl, rfl, rfl, rfl, rfl⟩, fun s p => rfl⟩

/-- Witness for C9 at a concrete socket and frame list. -/
theorem c9_mock_socket_roundtrip_witness :
    ((MockSocket.mk [[1]]).send_multipart noopResponderFix
      [[2, 3], [4]]).recv_multipart.1 = [[2, 3], [4]] :=
  c9_mock_socket_roundtrip.1 ⟨[[1]]⟩ [[2, 3], [4]]

/-! ## Writer roles and `send_eos` result shapes (claim C2) -/

/-- `WriterSocketType` (zeromq.rs lines 48-53). -/
inductive WriterSocketType where
  | Pub
  | Dealer
  | Req
  deriving Repr, DecidableEq

/-- Modelled from the spec: the constructor heads of `WriterResult`
(`writer.rs`, not among the sources).  The spec names `Success{...}`,
`Ack{...}` and `NoAck{...}`; only the head matters for result-shape
claims. -/
inductive WriterResultKind where
  | Success
  | Ack
  | NoAck
  deriving Repr, DecidableEq

/-- Modelled from the spec: the result shape of `Writer::send_eos(topic)`
per writer role.  `writer.rs` is not among the sources, but the
repository's integration tests pin the shape down:
`test_req_rep` (zeromq.rs lines 543-546) asserts `Ack` for a Req writer,
`test_dealer_router` (lines 596-599) asserts `Ack` for a Dealer writer,
and `test_pub_sub` (lines 667-668) asserts `Success { .. }` — not
`Ack` — for a Publisher. -/
def sendEosResultKind : WriterSocketType → WriterResultKind
  | .Req => .Ack
  | .Dealer => .Ack
  | .Pub => .Success

/-- Modelled from the spec: the spec's own description of `send_eos`
("a writer's send_eos always awaits an acknowledgment regardless of
role", "EOS on Publisher and Dealer still awaits an OK acknowledgment"),
i.e. an Ack-shaped result for every role. -/
def specSendEosResultKind : WriterSocketType → WriterResultKind :=
  fun _ => .Ack

/-- C2 counterexample: a Publisher's `send_eos` returns the plain
`Success` variant (asserted by `test_pub_sub`), not the Ack shape the
claim requires for every writer role. -/
theorem c2_pub_eos_not_ack :
    sendEosResultKind .Pub ≠ WriterResultKind.Ack ∧
    sendEosResultKind .Pub ≠ specSendEosResultKind .Pub := by
  exact ⟨by decide, by decide⟩

/-- C2 amended: `send_eos` yields an Ack-shaped result for Dealer and
Req writers (it awaits the two-byte "OK"), but a Publisher's `send_eos`
yields the plain `Success` variant. -/
theorem c2_send_eos_shapes :
    sendEosResultKind .Dealer = specSendEosResultKind .Dealer ∧
    sendEosResultKind .Req = specSendEosResultKind .Req ∧
    sendEosResultKind .Pub = WriterResultKind.Success := by
  exact ⟨rfl, rfl, rfl⟩

/-! ## IPC filesystem helpers (zeromq.rs lines 357-382, claim C10) -/

/-- A filesystem entry: an exact path string, whether it is a directory,
and its permission mode. -/
structure FsEntry where
  path : List Char
  dirFlag : Bool
  mode : Nat
  deriving Repr, DecidableEq

/-- Abstract filesystem state: a list of entries.  OS-level failure modes
beyond the existence checks made by the code (permission errors,
ancestors existing as regular files, path normalisation by `stat`) are
outside the model. -/
structure FsState where
  entries : List FsEntry
  deriving Repr, DecidableEq

/-- `Path::exists()` against the abstract state. -/
def pathExists (fs : FsState) (p : List Char) : Bool :=
  fs.entries.any fun e => decide (e.path = p)

/-- `Path::exists() && Path::is_dir()` against the abstract state. -/
def isDirPath (fs : FsState) (p : List Char) : Bool :=
  fs.entries.any fun e => decide (e.path = p) && e.dirFlag

/-- `endpoint.strip_prefix("ipc://").unwrap()`; `none` models the panic
when the endpoint does not start with `ipc://`. -/
def stripIpc (endpoint : List Char) : Option (List Char) :=
  if ("ipc://".toList).isPrefixOf endpoint then some (endpoint.drop 6)
  else none

/-- A path with its trailing slashes removed. -/
def stripTrailing (p : List Char) : List Char :=
  (p.reverse.dropWhile fun c => decide (c = '/')).reverse

/-- Drop the final component of a nonempty path that has no trailing
slash: remove the last run of non-slash characters, then the separator
run; an empty remainder distinguishes a bare component (parent `""`)
from an absolute single component (parent `"/"`). -/
def parentOfStripped (q : List Char) : Option (List Char) :=
  if ((q.reverse.dropWhile fun c => decide (c ≠ '/')).dropWhile
      fun c => decide (c = '/')).isEmpty then
    if (q.reverse.dropWhile fun c => decide (c ≠ '/')).isEmpty then some []
    else some ['/']
  else
    some ((q.reverse.dropWhile fun c => decide (c ≠ '/')).dropWhile
      fun c => decide (c = '/')).reverse

/-- `std::path::Path::parent` for Unix-style path strings: ignore
trailing slashes, then drop the final component; `none` for the empty
path and for root spellings (all slashes). -/
def pathParent (p : List Char) : Option (List Char) :=
  if p.isEmpty then none
  else if (stripTrailing p).isEmpty then none
  else parentOfStripped (stripTrailing p)

/-- Modelled from the spec: `std::fs::create_dir_all`, which creates
every missing ancestor directory; in the model it always succeeds, and
`create_dir_all("")` is a no-op returning Ok as in std.  `fuel` bounds
the parent recursion (each parent is strictly shorter). -/
def mkDirAll : Nat → List Char → FsState → FsState
  | 0, _, fs => fs
  | fuel + 1, p, fs =>
    if p.isEmpty then fs
    else
      let fs' : FsState :=
        if isDirPath fs p then fs else ⟨⟨p, true, 0⟩ :: fs.entries⟩
      match pathParent p with
      | none => fs'
      | some par => mkDirAll fuel par fs'

/-- The chain of a path and its ancestors, following `pathParent`. -/
def ancestorChain : Nat → List Char → List (List Char)
  | 0, _ => []
  | fuel + 1, p =>
    if p.isEmpty then []
    else
      match pathParent p with
      | none => [p]
      | some par => p :: ancestorChain fuel par

/-- `create_ipc_dirs(endpoint)` (zeromq.rs lines 357-369).  `none`
models a panic (`strip_prefix(..).unwrap()` on a non-ipc endpoint, or
`path.parent().unwrap()` on a root path); `some (.error ())` models
`bail!`. -/
def create_ipc_dirs (fs : FsState) (endpoint : List Char) :
    Option (Except Unit FsState) :=
  match stripIpc endpoint with
  | none => none
  | some p =>
    if p.isEmpty then some (.error ())
    else if pathExists fs p && isDirPath fs p then some (.error ())
    else
      match pathParent p with
      | none => none
      | some par => some (.ok (mkDirAll (par.length + 1) par fs))

/-- `std::fs::set_permissions(path, mode)` on the abstract state. -/
def setMode (fs : FsState) (p : List Char) (m : Nat) : FsState :=
  ⟨fs.entries.map fun e => if e.path = p then { e with mode := m } else e⟩

/-- `set_ipc_permissions(endpoint, permissions)` (zeromq.rs lines
371-382). -/
def set_ipc_permissions (fs : FsState) (endpoint : List Char)
    (perm : Nat) : Option (Except Unit FsState) :=
  match stripIpc endpoint with
  | none => none
  | some p =>
    if p.isEmpty then some (.error ())
    else if pathExists fs p then some (.ok (setMode fs p perm))
    else some (.error ())

theorem isDirPath_imp_exists {fs : FsState} {p : List Char}
    (h : isDirPath fs p = true) : pathExists fs p = true := by
  rw [isDirPath, List.any_eq_true] at h
  obtain ⟨e, he, hp⟩ := h
  rw [Bool.and_eq_true] at hp
  rw [pathExists, List.any_eq_true]
  exact ⟨e, he, hp.1⟩

theorem parentOfStripped_isSome (q : List Char) :
    (parentOfStripped q).isSome = true := by
  unfold parentOfStripped
  split
  · split <;> rfl
  · rfl

theorem stripTrailing_isEmpty_iff {p : List Char} :
    (stripTrailing p).isEmpty = true ↔
      p.all (fun c => decide (c = '/')) = true := by
  unfold stripTrailing
  rw [List.isEmpty_iff, List.reverse_eq_nil_iff, List.dropWhile_eq_nil_iff,
    List.all_eq_true]
  constructor
  · intro h c hc
    exact h c (List.mem_reverse.mpr hc)
  · intro h c hc
    exact h c (List.mem_reverse.mp hc)

theorem pathParent_eq_none_iff {p : List Char} :
    pathParent p = none ↔
      p = [] ∨ p.all (fun c => decide (c = '/')) = true := by
  unfold pathParent
  by_cases hp : p.isEmpty
  · rw [if_pos hp]
    simp [List.isEmpty_iff.mp hp]
  · rw [if_neg hp]
    have hpne : ¬p = [] := fun h => hp (by simp [h])
    by_cases hq : (stripTrailing p).isEmpty
    · rw [if_pos hq]
      constructor
      · intro _
        exact Or.inr (stripTrailing_isEmpty_iff.mp hq)
      · intro _
        rfl
    · rw [if_neg hq]
      constructor
      · intro h
        have := parentOfStripped_isSome (stripTrailing p)
        rw [h] at this
        exact absurd this (by simp)
      · intro h
        rcases h with h | h
        · exact absurd h hpne
        · exact absurd (stripTrailing_isEmpty_iff.mpr h) hq

theorem isDirPath_extend {x : List Char} (fs₀ : FsState) (p : List Char)
    (h₀ : isDirPath fs₀ x = true) :
    isDirPath (if isDirPath fs₀ p then fs₀
      else ⟨⟨p, true, 0⟩ :: fs₀.entries⟩) x = true := by
  split
  · exact h₀
  · rw [isDirPath, List.any_eq_true] at h₀ ⊢
    obtain ⟨e, he, hp'⟩ := h₀
    exact ⟨e, List.mem_cons_of_mem _ he, hp'⟩

theorem isDirPath_mkDirAll_mono {x : List Char} :
    ∀ (fuel : Nat) (p : List Char) (fs : FsState), isDirPath fs x = true →
      isDirPath (mkDirAll fuel p fs) x = true := by
  intro fuel
  induction fuel with
  | zero =>
    intro p fs h
    exact h
  | succ fuel ih =>
    intro p fs h
    rw [mkDirAll]
    by_cases hp : p.isEmpty
    · rw [if_pos hp]
      exact h
    · rw [if_neg hp]
      cases hpar : pathParent p with
      | none => exact isDirPath_extend fs p h
      | some par => exact ih par _ (isDirPath_extend fs p h)

theorem isDirPath_mkDirAll_chain {x : List Char} :
    ∀ (fuel : Nat) (p : List Char) (fs : FsState),
      x ∈ ancestorChain fuel p → isDirPath (mkDirAll fuel p fs) x = true := by
  intro fuel
  induction fuel with
  | zero =>
    intro p fs hx
    simp [ancestorChain] at hx
  | succ fuel ih =>
    intro p fs hx
    rw [ancestorChain] at hx
    rw [mkDirAll]
    by_cases hp : p.isEmpty
    · rw [if_pos hp] at hx
      simp at hx
    · rw [if_neg hp] at hx
      rw [if_neg hp]
      have hself : ∀ fs₀ : FsState,
          isDirPath (if isDirPath fs₀ p then fs₀
            else ⟨⟨p, true, 0⟩ :: fs₀.entries⟩) p = true := by
        intro fs₀
        split
        · assumption
        · rw [isDirPath, List.any_eq_true]
          exact ⟨⟨p, true, 0⟩, List.mem_cons_self _ _, by simp⟩
      cases hpar : pathParent p with
      | none =>
        rw [hpar] at hx
        simp only [List.mem_singleton] at hx
        subst hx
        exact hself fs
      | some par =>
        rw [hpar] at hx
        rw [List.mem_cons] at hx
        rcases hx with rfl | hx
        · exact isDirPath_mkDirAll_mono fuel par _ (hself fs)
        · exact ih par _ hx

/-- C10: for an `ipc://` endpoint, `create_ipc_dirs` fails exactly when
the stripped path is empty or already exists as a directory, and
otherwise succeeds after creating every missing ancestor directory of
the path; `set_ipc_permissions` fails exactly when the stripped path is
empty or does not exist, and otherwise sets the mode of the file at that
path to the supplied mask.  The hypothesis `hroot` states the minimal
filesystem well-formedness the code relies on: if the stripped path is a
root spelling (all slashes), the filesystem reports it as an existing
directory (so `path.parent().unwrap()` is never reached on a root). -/
theorem c10_ipc_helpers (fs : FsState) (ep p : List Char) (perm : Nat)
    (hstrip : stripIpc ep = some p)
    (hroot : p ≠ [] → p.all (fun c => decide (c = '/')) = true →
      isDirPath fs p = true) :
    (∃ res, create_ipc_dirs fs ep = some res ∧
      ((∃ e, res = .error e) ↔ (p = [] ∨ isDirPath fs p = true)) ∧
      (∀ fs', res = .ok fs' → ∀ q, pathParent p = some q →
        ∀ x ∈ ancestorChain (q.length + 1) q, isDirPath fs' x = true)) ∧
    (∃ res2, set_ipc_permissions fs ep perm = some res2 ∧
      ((∃ e, res2 = .error e) ↔ (p = [] ∨ pathExists fs p = false)) ∧
      (∀ fs', res2 = .ok fs' →
        ∀ e ∈ fs'.entries, e.path = p → e.mode = perm)) := by
  constructor
  · by_cases hp : p = []
    · subst hp
      refine ⟨.error (), ?_, ?_, ?_⟩
      · rw [create_ipc_dirs, hstrip]
        rfl
      · simp
      · intro fs' h
        exact absurd h (by simp)
    · by_cases hdir : isDirPath fs p = true
      · refine ⟨.error (), ?_, ?_, ?_⟩
        · rw [create_ipc_dirs, hstrip]
          dsimp only
          rw [if_neg (by simpa using hp),
            if_pos (by rw [isDirPath_imp_exists hdir, hdir]; rfl)]
        · simp [hp, hdir]
        · intro fs' h
          exact absurd h (by simp)
      · have hdirf : isDirPath fs p = false := by simpa using hdir
        cases hpar : pathParent p with
        | none =>
          exfalso
          rcases pathParent_eq_none_iff.mp hpar with h | h
          · exact hp h
          · exact hdir (hroot hp h)
        | some par =>
          refine ⟨.ok (mkDirAll (par.length + 1) par fs), ?_, ?_, ?_⟩
          · rw [create_ipc_dirs, hstrip]
            dsimp only
            rw [if_neg (by simpa using hp), if_neg (by simp [hdirf]), hpar]
          · constructor
            · rintro ⟨e, he⟩
              exact absurd he (by simp)
            · rintro (h | h)
              · exact absurd h hp
              · exact absurd h hdir
          · intro fs' h q hq x hx
            simp only [Option.some.injEq] at hq
            subst hq
            simp only [Except.ok.injEq] at h
            subst h
            exact isDirPath_mkDirAll_chain _ _ fs hx
  · by_cases hp : p = []
    · subst hp
      refine ⟨.error (), ?_, ?_, ?_⟩
      · rw [set_ipc_permissions, hstrip]
        rfl
      · simp
      · intro fs' h
        exact absurd h (by simp)
    · by_cases hex : pathExists fs p = true
      · refine ⟨.ok (setMode fs p perm), ?_, ?_, ?_⟩
        · rw [set_ipc_permissions, hstrip]
          dsimp only
          rw [if_neg (by simpa using hp), if_pos hex]
        · constructor
          · rintro ⟨e, he⟩
            exact absurd he (by simp)
          · rintro (h | h)
            · exact absurd h hp
            · rw [hex] at h
              exact absurd h (by simp)
        · intro fs' h e he hpath
          simp only [Except.ok.injEq] at h
          subst h
          rw [setMode] at he
          simp only [List.mem_map] at he
          obtain ⟨e₀, he₀, hmap⟩ := he
          by_cases h₀ : e₀.path = p
          · rw [if_pos h₀] at hmap
            rw [← hmap]
          · rw [if_neg h₀] at hmap
            rw [← hmap] at hpath
            exact absurd hpath h₀
      · have hexf : pathExists fs p = false := by simpa using hex
        refine ⟨.error (), ?_, ?_, ?_⟩
        · rw [set_ipc_permissions, hstrip]
          dsimp only
          rw [if_neg (by simpa using hp), if_neg (by simp [hexf])]
        · simp [hp, hexf]
        · intro fs' h
          exact absurd h (by simp)

/-- Witness for C10: `ipc:///tmp/sock` over a filesystem holding the
directories `/` and `/tmp` and the file `/tmp/sock`. -/
theorem c10_ipc_helpers_witness :
    (∃ res, create_ipc_dirs
        ⟨[⟨"/".toList, true, 0⟩, ⟨"/tmp".toList, true, 493⟩,
          ⟨"/tmp/sock".toList, false, 420⟩]⟩ "ipc:///tmp/sock".toList =
        some res ∧
      ((∃ e, res = .error e) ↔ ("/tmp/sock".toList = [] ∨
        isDirPath ⟨[⟨"/".toList, true, 0⟩, ⟨"/tmp".toList, true, 493⟩,
          ⟨"/tmp/sock".toList, false, 420⟩]⟩ "/tmp/sock".toList = true)) ∧
      (∀ fs', res = .ok fs' → ∀ q, pathParent "/tmp/sock".toList = some q →
        ∀ x ∈ ancestorChain (q.length + 1) q, isDirPath fs' x = true)) ∧
    (∃ res2, set_ipc_permissions
        ⟨[⟨"/".toList, true, 0⟩, ⟨"/tmp".toList, true, 493⟩,
          ⟨"/tmp/sock".toList, false, 420⟩]⟩ "ipc:///tmp/sock".toList 511 =
        some res2 ∧
      ((∃ e, res2 = .error e) ↔ ("/tmp/sock".toList = [] ∨
        pathExists ⟨[⟨"/".toList, true, 0⟩, ⟨"/tmp".toList, true, 493⟩,
          ⟨"/tmp/sock".toList, false, 420⟩]⟩ "/tmp/sock".toList = false)) ∧
      (∀ fs', res2 = .ok fs' →
        ∀ e ∈ fs'.entries, e.path = "/tmp/sock".toList → e.mode = 511)) :=
  c10_ipc_helpers
    ⟨[⟨"/".toList, true, 0⟩, ⟨"/tmp".toList, true, 493⟩,
      ⟨"/tmp/sock".toList, false, 420⟩]⟩
    "ipc:///tmp/sock".toList "/tmp/sock".toList 511 (by decide) (by decide)

/-! ## ZeroMQ socket URI parsing (zeromq.rs lines 42-129, claims C3, C4)

`parse_zmq_socket_uri` applies `SOCKET_URI_PATTERN =
([a-z]+\+[a-z]+:)?((?:tcp|ipc)://[^:]+)(:.+)?` via `Regex::captures`,
which performs an *unanchored leftmost-first search*, then validates a
present options capture against `SOCKET_OPTIONS_PATTERN =
(pub|sub|req|rep|dealer|router)\+(bind|connect):`, again via an
unanchored `captures` search.

The regex is simple enough to embed as a deterministic matcher:
* each greedy `[a-z]+` / `[^:]+` / `.+` run is the maximal run of
  admissible characters; any shorter run would have to be followed by
  the next pattern character, yet it is followed by another admissible
  character, so the maximal run is the only candidate and backtracking
  inside a run never helps;
* no two alternation branches (`tcp|ipc`, the role tokens, the
  direction tokens) can match at the same position, since none is a
  prefix of another, so ordered first-match equals leftmost-first
  alternation;
* the optional groups are greedy: a present options/tail group is
  preferred, falling back to the absent case on failure. -/

inductive ReaderSocketType where
  | Sub
  | Router
  | Rep
  deriving Repr, DecidableEq

/-- `SocketType` (zeromq.rs lines 55-59). -/
inductive SocketType where
  | Reader (r : ReaderSocketType)
  | Writer (w : WriterSocketType)
  deriving Repr, DecidableEq

/-- `ZmqSocketUri` (zeromq.rs lines 68-73). -/
structure ZmqSocketUri where
  endpoint : List Char
  source : Option (List Char)
  bind : Option Bool
  socketType : Option SocketType
  deriving Repr, DecidableEq

def isLowerAlpha (c : Char) : Bool := decide ('a' ≤ c) && decide (c ≤ 'z')

def nonColon (c : Char) : Bool := decide (c ≠ ':')

def nonNewline (c : Char) : Bool := decide (c ≠ '\n')

/-- Match `[a-z]+\+[a-z]+:` at the start of `cs`: the matched text and
the remainder. -/
def matchOptionsAt (cs : List Char) : Option (List Char × List Char) :=
  if (cs.takeWhile isLowerAlpha).isEmpty then none
  else
    match cs.dropWhile isLowerAlpha with
    | [] => none
    | c :: rest2 =>
      if c = '+' then
        if (rest2.takeWhile isLowerAlpha).isEmpty then none
        else
          match rest2.dropWhile isLowerAlpha with
          | [] => none
          | c2 :: rest4 =>
            if c2 = ':' then
              some (cs.takeWhile isLowerAlpha ++
                '+' :: (rest2.takeWhile isLowerAlpha ++ [':']), rest4)
            else none
      else none

/-- Match `scheme[^:]+` at the start of `cs` for a fixed scheme text
(`tcp://` or `ipc://`). -/
def matchSchemeEndpointAt (scheme cs : List Char) :
    Option (List Char × List Char) :=
  if scheme.isPrefixOf cs then
    if ((cs.drop scheme.length).takeWhile nonColon).isEmpty then none
    else
      some (scheme ++ (cs.drop scheme.length).takeWhile nonColon,
        (cs.drop scheme.length).dropWhile nonColon)
  else none

/-- Match `(?:tcp|ipc)://[^:]+` at the start of `cs`. -/
def matchEndpointAt (cs : List Char) : Option (List Char × List Char) :=
  match matchSchemeEndpointAt "tcp://".toList cs with
  | some r => some r
  | none => matchSchemeEndpointAt "ipc://".toList cs

/-- Match the optional `(:.+)?` group at the start of `cs`; `none` when
the group is absent (match ends before `cs`). -/
def matchTailAt (cs : List Char) : Option (List Char) :=
  match cs with
  | [] => none
  | c :: rest =>
    if c = ':' then
      if (rest.takeWhile nonNewline).isEmpty then none
      else some (':' :: rest.takeWhile nonNewline)
    else none

/-- Try the whole URI pattern anchored at the start of `cs`, returning
the three captures (options, endpoint, tail). -/
def tryAt (cs : List Char) :
    Option (Option (List Char) × List Char × Option (List Char)) :=
  match matchOptionsAt cs with
  | some (opts, rest) =>
    match matchEndpointAt rest with
    | some (ep, rest2) => some (some opts, ep, matchTailAt rest2)
    | none =>
      match matchEndpointAt cs with
      | some (ep, rest2) => some (none, ep, matchTailAt rest2)
      | none => none
  | none =>
    match matchEndpointAt cs with
    | some (ep, rest2) => some (none, ep, matchTailAt rest2)
    | none => none

/-- `SOCKET_URI_PATTERN.captures(uri)`: unanchored leftmost-first
search. -/
def uriCaptures :
    List Char → Option (Option (List Char) × List Char × Option (List Char))
  | [] => none
  | c :: rest =>
    match tryAt (c :: rest) with
    | some r => some r
    | none => uriCaptures rest

/-- The role alternation of `SOCKET_OPTIONS_PATTERN`, in regex order. -/
def roleTokens : List (List Char) :=
  ["pub".toList, "sub".toList, "req".toList, "rep".toList,
    "dealer".toList, "router".toList]

/-- The direction alternation of `SOCKET_OPTIONS_PATTERN`. -/
def dirTokens : List (List Char) := ["bind".toList, "connect".toList]

/-- First token of `toks` that is a prefix of `cs`; since no two tokens
of either alternation are prefixes of one another, at most one can match
at a position and ordered first-match equals leftmost-first. -/
def matchAltAt (toks : List (List Char)) (cs : List Char) :
    Option (List Char × List Char) :=
  match toks with
  | [] => none
  | tok :: rest =>
    if tok.isPrefixOf cs then some (tok, cs.drop tok.length)
    else matchAltAt rest cs

/-- Match `(pub|sub|req|rep|dealer|router)\+(bind|connect):` anchored at
the start of `cs`, returning the two token captures. -/
def optionsAt (cs : List Char) : Option (List Char × List Char) :=
  match matchAltAt roleTokens cs with
  | some (role, rest1) =>
    match rest1 with
    | [] => none
    | c :: rest2 =>
      if c = '+' then
        match matchAltAt dirTokens rest2 with
        | some (dir, rest3) =>
          match rest3 with
          | [] => none
          | c2 :: _ => if c2 = ':' then some (role, dir) else none
        | none => none
      else none
  | none => none

/-- `SOCKET_OPTIONS_PATTERN.captures(options)`: unanchored search. -/
def optionsCaptures : List Char → Option (List Char × List Char)
  | [] => none
  | c :: rest =>
    match optionsAt (c :: rest) with
    | some r => some r
    | none => optionsCaptures rest

/-- The `match socket_type_str` arms of `parse_zmq_socket_uri`
(zeromq.rs lines 87-97); the final `_ => bail!` arm yields `none`. -/
def socketTypeOfTok (tok : List Char) : Option SocketType :=
  if tok = "sub".toList then some (.Reader .Sub)
  else if tok = "router".toList then some (.Reader .Router)
  else if tok = "rep".toList then some (.Reader .Rep)
  else if tok = "pub".toList then some (.Writer .Pub)
  else if tok = "dealer".toList then some (.Writer .Dealer)
  else if tok = "req".toList then some (.Writer .Req)
  else none

/-- The `match bind_str` arms (zeromq.rs lines 99-103). -/
def bindOfTok (tok : List Char) : Option Bool :=
  if tok = "bind".toList then some true
  else if tok = "connect".toList then some false
  else none

/-- `parse_zmq_socket_uri(uri)` (zeromq.rs lines 75-129). -/
def parse_zmq_socket_uri (uri : List Char) : Except String ZmqSocketUri :=
  match uriCaptures uri with
  | none => .error "Invalid ZeroMQ socket URI"
  | some (optsOpt, ep, tailOpt) =>
    match optsOpt with
    | some opts =>
      match optionsCaptures opts with
      | none => .error "Invalid socket options"
      | some (roleTok, dirTok) =>
        match socketTypeOfTok roleTok with
        | none => .error "Unknown socket type"
        | some st =>
          match bindOfTok dirTok with
          | none => .error "Unknown bind type"
          | some b =>
            match tailOpt with
            | some tl =>
              match st with
              | .Writer w =>
                .ok ⟨ep, some (tl.drop 1), some b, some (.Writer w)⟩
              | _ =>
                .error "Source specification is not allowed for reader sockets"
            | none => .ok ⟨ep, none, some b, some st⟩
    | none =>
      match tailOpt with
      | some _ =>
        .error "Source specification is not allowed for reader sockets"
      | none => .ok ⟨ep, none, none, none⟩

/-! ### The URI grammar by the spec's words

For the refinement comparison, the grammar
`([a-z]+\+[a-z]+:)?((tcp|ipc)://[^:]+)(:.+)?` is also defined directly
as a brute-force whole-string matcher over all split points, following
the spec's words rather than the code. -/

/-- All decompositions of `l` into two consecutive parts. -/
def splits2 (l : List Char) : List (List Char × List Char) :=
  (List.range (l.length + 1)).map fun i => (l.take i, l.drop i)

/-- The whole string `a` matches `[a-z]+\+[a-z]+:`. -/
def optFull (a : List Char) : Bool :=
  (splits2 a).any fun x =>
    (!x.1.isEmpty) && x.1.all isLowerAlpha &&
      (match x.2 with
        | [] => false
        | c :: z =>
          decide (c = '+') &&
            ((splits2 z).any fun u =>
              (!u.1.isEmpty) && u.1.all isLowerAlpha && decide (u.2 = [':'])))

/-- The whole string `b` matches `(tcp|ipc)://[^:]+`. -/
def epFull (b : List Char) : Bool :=
  (("tcp://".toList).isPrefixOf b || ("ipc://".toList).isPrefixOf b) &&
    (!(b.drop 6).isEmpty) && (b.drop 6).all nonColon

/-- The whole string `c` matches `:.+`. -/
def tailFull (c : List Char) : Bool :=
  match c with
  | [] => false
  | c0 :: rest => decide (c0 = ':') && (!rest.isEmpty) && rest.all nonNewline

/-- The whole string `s` matches the URI grammar. -/
def wholeMatch (s : List Char) : Bool :=
  (splits2 s).any fun x =>
    (x.1.isEmpty || optFull x.1) &&
      ((splits2 x.2).any fun y =>
        epFull y.1 && (y.2.isEmpty || tailFull y.2))

/-- Some prefix of `s` matches the URI grammar (an anchored search). -/
def anchoredMatch (s : List Char) : Bool :=
  (List.range (s.length + 1)).any fun i => wholeMatch (s.take i)

/-- Some substring of `s` matches the URI grammar (an unanchored
search). -/
def hasUriMatch : List Char → Bool
  | [] => false
  | c :: rest => anchoredMatch (c :: rest) || hasUriMatch rest

/-- Some `role+direction:` token pair is a prefix of `cs`. -/
def optionsTokenAt (cs : List Char) : Bool :=
  roleTokens.any fun r => dirTokens.any fun d =>
    (r ++ '+' :: (d ++ [':'])).isPrefixOf cs

/-- Some substring of `o` matches
`(pub|sub|req|rep|dealer|router)\+(bind|connect):`. -/
def hasOptionsMatch : List Char → Bool
  | [] => false
  | c :: rest => optionsTokenAt (c :: rest) || hasOptionsMatch rest

/-! ### Helper lemmas about runs and split points -/

theorem all_takeWhile (p : Char → Bool) (l : List Char) :
    (l.takeWhile p).all p = true := by
  induction l with
  | nil => rfl
  | cons c rest ih =>
    rw [List.takeWhile]
    cases hc : p c with
    | false => rfl
    | true => simp [hc, ih]

theorem takeWhile_append_all {p : Char → Bool} {x : List Char}
    (t : List Char) (hx : x.all p = true) :
    (x ++ t).takeWhile p = x ++ t.takeWhile p := by
  induction x with
  | nil => rfl
  | cons c rest ih =>
    rw [List.all_cons, Bool.and_eq_true] at hx
    rw [List.cons_append, List.takeWhile, hx.1]
    rw [List.cons_append, ih hx.2]

theorem dropWhile_append_all {p : Char → Bool} {x : List Char}
    (t : List Char) (hx : x.all p = true) :
    (x ++ t).dropWhile p = t.dropWhile p := by
  induction x with
  | nil => rfl
  | cons c rest ih =>
    rw [List.all_cons, Bool.and_eq_true] at hx
    rw [List.cons_append, List.dropWhile, hx.1]
    exact ih hx.2

theorem takeWhile_append_stop {p : Char → Bool} {x : List Char} {h : Char}
    (t : List Char) (hx : x.all p = true) (hh : p h = false) :
    (x ++ h :: t).takeWhile p = x := by
  rw [takeWhile_append_all _ hx, List.takeWhile, hh, List.append_nil]

theorem dropWhile_append_stop {p : Char → Bool} {x : List Char} {h : Char}
    (t : List Char) (hx : x.all p = true) (hh : p h = false) :
    (x ++ h :: t).dropWhile p = h :: t := by
  rw [dropWhile_append_all _ hx, List.dropWhile, hh]

theorem splits2_any_intro {P : List Char × List Char → Bool}
    {l x y : List Char} (h : l = x ++ y) (hP : P (x, y) = true) :
    (splits2 l).any P = true := by
  subst h
  rw [splits2, List.any_eq_true]
  refine ⟨(x, y), ?_, hP⟩
  rw [List.mem_map]
  refine ⟨x.length, ?_, ?_⟩
  · rw [List.mem_range, List.length_append]
    omega
  · rw [List.take_left, List.drop_left]

theorem splits2_any_elim {P : List Char × List Char → Bool}
    {l : List Char} (h : (splits2 l).any P = true) :
    ∃ x y, l = x ++ y ∧ P (x, y) = true := by
  rw [splits2, List.any_eq_true] at h
  obtain ⟨a, ha, hP⟩ := h
  rw [List.mem_map] at ha
  obtain ⟨i, -, rfl⟩ := ha
  exact ⟨l.take i, l.drop i, (List.take_append_drop i l).symm, hP⟩

/-! ### Soundness and completeness of the anchored matchers -/

theorem isLowerAlpha_plus : isLowerAlpha '+' = false := by decide

theorem isLowerAlpha_colon : isLowerAlpha ':' = false := by decide

theorem not_isEmpty_of_ne {l : List Char} (h : l ≠ []) :
    (!l.isEmpty) = true := by
  cases hb : l.isEmpty
  · rfl
  · exact absurd (List.isEmpty_iff.mp hb) h

theorem ne_of_not_isEmpty {l : List Char} (h : ¬l.isEmpty = true) :
    l ≠ [] := fun he => h (by rw [he]; rfl)

theorem matchOptionsAt_sound {cs a rest : List Char}
    (h : matchOptionsAt cs = some (a, rest)) :
    cs = a ++ rest ∧ optFull a = true := by
  unfold matchOptionsAt at h
  by_cases h1 : (cs.takeWhile isLowerAlpha).isEmpty
  · rw [if_pos h1] at h
    exact absurd h (by simp)
  · rw [if_neg h1] at h
    cases hdw : cs.dropWhile isLowerAlpha with
    | nil =>
      rw [hdw] at h
      exact absurd h (by simp)
    | cons c rest2 =>
      rw [hdw] at h
      dsimp only at h
      by_cases hc : c = '+'
      case neg =>
        rw [if_neg hc] at h
        exact absurd h (by simp)
      rw [if_pos hc] at h
      subst hc
      by_cases h2 : (rest2.takeWhile isLowerAlpha).isEmpty
      · rw [if_pos h2] at h
        exact absurd h (by simp)
      · rw [if_neg h2] at h
        cases hdw2 : rest2.dropWhile isLowerAlpha with
        | nil =>
          rw [hdw2] at h
          exact absurd h (by simp)
        | cons c2 rest4 =>
          rw [hdw2] at h
          dsimp only at h
          by_cases hc2 : c2 = ':'
          case neg =>
            rw [if_neg hc2] at h
            exact absurd h (by simp)
          rw [if_pos hc2] at h
          subst hc2
          simp only [Option.some.injEq, Prod.mk.injEq] at h
          obtain ⟨rfl, rfl⟩ := h
          constructor
          · conv_lhs => rw [← List.takeWhile_append_dropWhile isLowerAlpha cs,
              hdw, ← List.takeWhile_append_dropWhile isLowerAlpha rest2, hdw2]
            simp
          · apply @splits2_any_intro _ _ (cs.takeWhile isLowerAlpha)
              ('+' :: (rest2.takeWhile isLowerAlpha ++ [':'])) rfl
            rw [Bool.and_eq_true, Bool.and_eq_true]
            refine ⟨⟨not_isEmpty_of_ne (ne_of_not_isEmpty h1),
              all_takeWhile _ _⟩, ?_⟩
            dsimp only
            rw [Bool.and_eq_true]
            refine ⟨by decide, ?_⟩
            apply @splits2_any_intro _ _ (rest2.takeWhile isLowerAlpha)
              ([':']) rfl
            rw [Bool.and_eq_true, Bool.and_eq_true]
            exact ⟨⟨not_isEmpty_of_ne (ne_of_not_isEmpty h2),
              all_takeWhile _ _⟩, by simp⟩

theorem matchOptionsAt_complete {x u : List Char} (rest : List Char)
    (hx : x ≠ []) (hxl : x.all isLowerAlpha = true)
    (hu : u ≠ []) (hul : u.all isLowerAlpha = true) :
    matchOptionsAt (x ++ '+' :: (u ++ ':' :: rest)) =
      some (x ++ '+' :: (u ++ [':']), rest) := by
  unfold matchOptionsAt
  rw [takeWhile_append_stop _ hxl isLowerAlpha_plus,
    dropWhile_append_stop _ hxl isLowerAlpha_plus]
  rw [if_neg (fun hh => hx (List.isEmpty_iff.mp hh))]
  dsimp only
  rw [if_pos rfl]
  rw [takeWhile_append_stop _ hul isLowerAlpha_colon,
    dropWhile_append_stop _ hul isLowerAlpha_colon]
  rw [if_neg (fun hh => hu (List.isEmpty_iff.mp hh))]
  dsimp only
  rw [if_pos rfl]

theorem optFull_elim {a : List Char} (h : optFull a = true) :
    ∃ x u, a = x ++ '+' :: (u ++ [':']) ∧ x ≠ [] ∧
      x.all isLowerAlpha = true ∧ u ≠ [] ∧ u.all isLowerAlpha = true := by
  obtain ⟨x, y, rfl, hP⟩ := splits2_any_elim h
  rw [Bool.and_eq_true, Bool.and_eq_true] at hP
  obtain ⟨⟨hne, hall⟩, hmatch⟩ := hP
  cases y with
  | nil => exact absurd hmatch (by simp)
  | cons c z =>
    dsimp only at hmatch
    rw [Bool.and_eq_true, decide_eq_true_eq] at hmatch
    obtain ⟨rfl, hany⟩ := hmatch
    obtain ⟨u, v, rfl, hQ⟩ := splits2_any_elim hany
    rw [Bool.and_eq_true, Bool.and_eq_true, decide_eq_true_eq] at hQ
    obtain ⟨⟨hu, hul⟩, rfl⟩ := hQ
    exact ⟨x, u, rfl, ne_of_not_isEmpty (by simpa using hne), hall,
      ne_of_not_isEmpty (by simpa using hu), hul⟩

theorem matchSchemeEndpointAt_sound {scheme cs ep rest : List Char}
    (h : matchSchemeEndpointAt scheme cs = some (ep, rest)) :
    ∃ body, ep = scheme ++ body ∧ cs = ep ++ rest ∧ body ≠ [] ∧
      body.all nonColon = true := by
  unfold matchSchemeEndpointAt at h
  by_cases hpre : scheme.isPrefixOf cs
  · rw [if_pos hpre] at h
    by_cases hb : ((cs.drop scheme.length).takeWhile nonColon).isEmpty
    · rw [if_pos hb] at h
      exact absurd h (by simp)
    · rw [if_neg hb] at h
      simp only [Option.some.injEq, Prod.mk.injEq] at h
      obtain ⟨rfl, rfl⟩ := h
      obtain ⟨t, rfl⟩ := isPrefixOf_iff_exists.mp hpre
      rw [List.drop_left]
      exact ⟨t.takeWhile nonColon, rfl,
        by rw [List.append_assoc, List.takeWhile_append_dropWhile],
        ne_of_not_isEmpty (by rwa [List.drop_left] at hb), all_takeWhile _ _⟩
  · rw [if_neg hpre] at h
    exact absurd h (by simp)

theorem matchEndpointAt_sound {cs ep rest : List Char}
    (h : matchEndpointAt cs = some (ep, rest)) :
    cs = ep ++ rest ∧ epFull ep = true := by
  have hcase : ∀ scheme : List Char,
      (scheme = "tcp://".toList ∨ scheme = "ipc://".toList) →
      matchSchemeEndpointAt scheme cs = some (ep, rest) →
      cs = ep ++ rest ∧ epFull ep = true := by
    intro scheme hs hsome
    obtain ⟨body, rfl, hcs, hne, hall⟩ := matchSchemeEndpointAt_sound hsome
    refine ⟨hcs, ?_⟩
    rw [epFull, Bool.and_eq_true, Bool.and_eq_true]
    have hdrop : (scheme ++ body).drop 6 = body := by
      rcases hs with rfl | rfl
      · rw [show (6 : Nat) = ("tcp://".toList).length from rfl]
        exact List.drop_left _ _
      · rw [show (6 : Nat) = ("ipc://".toList).length from rfl]
        exact List.drop_left _ _
    refine ⟨⟨?_, ?_⟩, ?_⟩
    · rw [Bool.or_eq_true]
      rcases hs with rfl | rfl
      · exact Or.inl (isPrefixOf_self_append _ _)
      · exact Or.inr (isPrefixOf_self_append _ _)
    · rw [hdrop]
      exact not_isEmpty_of_ne hne
    · rw [hdrop]
      exact hall
  unfold matchEndpointAt at h
  cases htcp : matchSchemeEndpointAt "tcp://".toList cs with
  | some r =>
    rw [htcp] at h
    simp only [Option.some.injEq] at h
    subst h
    exact hcase _ (Or.inl rfl) htcp
  | none =>
    rw [htcp] at h
    exact hcase _ (Or.inr rfl) h

theorem epFull_elim {b : List Char} (h : epFull b = true) :
    ∃ scheme body, (scheme = "tcp://".toList ∨ scheme = "ipc://".toList) ∧
      b = scheme ++ body ∧ body ≠ [] ∧ body.all nonColon = true := by
  rw [epFull, Bool.and_eq_true, Bool.and_eq_true, Bool.or_eq_true] at h
  obtain ⟨⟨hpre, hne⟩, hall⟩ := h
  rcases hpre with hpre | hpre <;>
    obtain ⟨t, rfl⟩ := isPrefixOf_iff_exists.mp hpre
  · rw [show (6 : Nat) = ("tcp://".toList).length from rfl,
      List.drop_left] at hne hall
    exact ⟨_, t, Or.inl rfl, rfl, ne_of_not_isEmpty (by simpa using hne), hall⟩
  · rw [show (6 : Nat) = ("ipc://".toList).length from rfl,
      List.drop_left] at hne hall
    exact ⟨_, t, Or.inr rfl, rfl, ne_of_not_isEmpty (by simpa using hne), hall⟩

theorem tcp_isPrefixOf_ipc_app (l : List Char) :
    ("tcp://".toList).isPrefixOf ("ipc://".toList ++ l) = false := rfl

theorem matchEndpointAt_complete {b : List Char} (rest : List Char)
    (hb : epFull b = true) : (matchEndpointAt (b ++ rest)).isSome = true := by
  obtain ⟨scheme, body, hs, rfl, hne, hall⟩ := epFull_elim hb
  have hne2 : ¬((body ++ rest).takeWhile nonColon).isEmpty = true := by
    rw [takeWhile_append_all _ hall]
    intro hh
    rw [List.isEmpty_iff] at hh
    exact hne (List.append_eq_nil.mp hh).1
  have hsome : matchSchemeEndpointAt scheme (scheme ++ body ++ rest) =
      some (scheme ++ (body ++ rest).takeWhile nonColon,
        (body ++ rest).dropWhile nonColon) := by
    unfold matchSchemeEndpointAt
    rw [List.append_assoc,
      if_pos (isPrefixOf_self_append _ _),
      List.drop_left, if_neg hne2]
  rcases hs with rfl | rfl
  · unfold matchEndpointAt
    rw [hsome]
    rfl
  · have htcp : matchSchemeEndpointAt "tcp://".toList
        ("ipc://".toList ++ (body ++ rest)) = none := by
      unfold matchSchemeEndpointAt
      rw [tcp_isPrefixOf_ipc_app]
      rfl
    unfold matchEndpointAt
    rw [List.append_assoc, htcp, ← List.append_assoc, hsome]
    rfl

theorem matchTailAt_sound {cs tl : List Char} (h : matchTailAt cs = some tl) :
    ∃ r3, cs = tl ++ r3 ∧ tailFull tl = true := by
  unfold matchTailAt at h
  cases cs with
  | nil => exact absurd h (by simp)
  | cons c rest =>
    dsimp only at h
    by_cases hc : c = ':'
    · rw [if_pos hc] at h
      subst hc
      by_cases hr : (rest.takeWhile nonNewline).isEmpty
      · rw [if_pos hr] at h
        exact absurd h (by simp)
      · rw [if_neg hr] at h
        simp only [Option.some.injEq] at h
        subst h
        refine ⟨rest.dropWhile nonNewline, ?_, ?_⟩
        · rw [List.cons_append, List.takeWhile_append_dropWhile]
        · rw [tailFull]
          rw [Bool.and_eq_true, Bool.and_eq_true]
          exact ⟨⟨by simp, not_isEmpty_of_ne (ne_of_not_isEmpty hr)⟩,
            all_takeWhile _ _⟩
    · rw [if_neg hc] at h
      exact absurd h (by simp)

theorem wholeMatch_intro {a b c : List Char}
    (ha : a = [] ∨ optFull a = true) (hb : epFull b = true)
    (hc : c = [] ∨ tailFull c = true) :
    wholeMatch (a ++ (b ++ c)) = true := by
  apply @splits2_any_intro _ _ a (b ++ c) rfl
  rw [Bool.and_eq_true]
  constructor
  · rw [Bool.or_eq_true]
    rcases ha with rfl | ha
    · exact Or.inl rfl
    · exact Or.inr ha
  · apply @splits2_any_intro _ _ b c rfl
    rw [Bool.and_eq_true]
    refine ⟨hb, ?_⟩
    rw [Bool.or_eq_true]
    rcases hc with rfl | hc
    · exact Or.inl rfl
    · exact Or.inr hc

theorem wholeMatch_elim {s : List Char} (h : wholeMatch s = true) :
    ∃ a b c, s = a ++ (b ++ c) ∧ (a = [] ∨ optFull a = true) ∧
      epFull b = true ∧ (c = [] ∨ tailFull c = true) := by
  obtain ⟨a, y, rfl, hP⟩ := splits2_any_elim h
  rw [Bool.and_eq_true] at hP
  obtain ⟨ha, hany⟩ := hP
  obtain ⟨b, c, rfl, hQ⟩ := splits2_any_elim hany
  rw [Bool.and_eq_true] at hQ
  obtain ⟨hb, hc⟩ := hQ
  refine ⟨a, b, c, rfl, ?_, hb, ?_⟩
  · rw [Bool.or_eq_true] at ha
    rcases ha with ha | ha
    · exact Or.inl (List.isEmpty_iff.mp ha)
    · exact Or.inr ha
  · rw [Bool.or_eq_true] at hc
    rcases hc with hc | hc
    · exact Or.inl (List.isEmpty_iff.mp hc)
    · exact Or.inr hc

theorem anchoredMatch_intro {cs pre suf : List Char} (h : cs = pre ++ suf)
    (hw : wholeMatch pre = true) : anchoredMatch cs = true := by
  subst h
  rw [anchoredMatch, List.any_eq_true]
  refine ⟨pre.length, ?_, ?_⟩
  · rw [List.mem_range, List.length_append]
    omega
  · rw [List.take_left]
    exact hw

theorem anchoredMatch_elim {cs : List Char} (h : anchoredMatch cs = true) :
    ∃ pre suf, cs = pre ++ suf ∧ wholeMatch pre = true := by
  rw [anchoredMatch, List.any_eq_true] at h
  obtain ⟨i, -, hw⟩ := h
  exact ⟨cs.take i, cs.drop i, (List.take_append_drop i cs).symm, hw⟩

theorem tryAt_sound {cs : List Char}
    {r : Option (List Char) × List Char × Option (List Char)}
    (h : tryAt cs = some r) : anchoredMatch cs = true := by
  have hepCase : ∀ ep rest2, matchEndpointAt cs = some (ep, rest2) →
      anchoredMatch cs = true := by
    intro ep rest2 hep
    obtain ⟨hcs, hfull⟩ := matchEndpointAt_sound hep
    cases ht : matchTailAt rest2 with
    | some tl =>
      obtain ⟨r3, hr2, htl⟩ := matchTailAt_sound ht
      have heq : cs = ([] ++ (ep ++ tl)) ++ r3 := by
        rw [hcs, hr2]
        simp
      exact anchoredMatch_intro heq
        (wholeMatch_intro (Or.inl rfl) hfull (Or.inr htl))
    | none =>
      have heq : cs = ([] ++ (ep ++ [])) ++ rest2 := by
        rw [hcs]
        simp
      exact anchoredMatch_intro heq
        (wholeMatch_intro (Or.inl rfl) hfull (Or.inl rfl))
  unfold tryAt at h
  cases hopt : matchOptionsAt cs with
  | none =>
    rw [hopt] at h
    cases hep : matchEndpointAt cs with
    | none =>
      rw [hep] at h
      exact absurd h (by simp)
    | some p =>
      obtain ⟨ep, rest2⟩ := p
      exact hepCase ep rest2 hep
  | some p =>
    obtain ⟨opts, rest⟩ := p
    rw [hopt] at h
    dsimp only at h
    cases hep1 : matchEndpointAt rest with
    | none =>
      rw [hep1] at h
      cases hep : matchEndpointAt cs with
      | none =>
        rw [hep] at h
        exact absurd h (by simp)
      | some p2 =>
        obtain ⟨ep, rest2⟩ := p2
        exact hepCase ep rest2 hep
    | some p2 =>
      obtain ⟨ep, rest2⟩ := p2
      rw [hep1] at h
      obtain ⟨hcs, hoptsFull⟩ := matchOptionsAt_sound hopt
      obtain ⟨hrest, hepFull⟩ := matchEndpointAt_sound hep1
      cases ht : matchTailAt rest2 with
      | some tl =>
        obtain ⟨r3, hr2, htl⟩ := matchTailAt_sound ht
        have heq : cs = (opts ++ (ep ++ tl)) ++ r3 := by
          rw [hcs, hrest, hr2]
          simp
        exact anchoredMatch_intro heq
          (wholeMatch_intro (Or.inr hoptsFull) hepFull (Or.inr htl))
      | none =>
        have heq : cs = (opts ++ (ep ++ [])) ++ rest2 := by
          rw [hcs, hrest]
          simp
        exact anchoredMatch_intro heq
          (wholeMatch_intro (Or.inr hoptsFull) hepFull (Or.inl rfl))

theorem tryAt_isSome_of_endpoint {cs : List Char}
    (h : (matchEndpointAt cs).isSome = true) : (tryAt cs).isSome = true := by
  cases hep : matchEndpointAt cs with
  | none =>
    rw [hep] at h
    exact absurd h (by simp)
  | some p =>
    obtain ⟨ep, r2⟩ := p
    unfold tryAt
    rw [hep]
    cases hopt : matchOptionsAt cs with
    | none => rfl
    | some q =>
      obtain ⟨opts, rest⟩ := q
      dsimp only
      cases hep1 : matchEndpointAt rest with
      | none => rfl
      | some p2 =>
        obtain ⟨ep2, r3⟩ := p2
        rfl

theorem tryAt_complete {cs : List Char} (h : anchoredMatch cs = true) :
    (tryAt cs).isSome = true := by
  obtain ⟨pre, suf, rfl, hw⟩ := anchoredMatch_elim h
  obtain ⟨a, b, c, rfl, ha, hb, hc⟩ := wholeMatch_elim hw
  rcases ha with rfl | ha
  · apply tryAt_isSome_of_endpoint
    have hshape : (([] : List Char) ++ (b ++ c)) ++ suf = b ++ (c ++ suf) := by
      simp
    rw [hshape]
    exact matchEndpointAt_complete (c ++ suf) hb
  · obtain ⟨x, u, rfl, hx, hxl, hu, hul⟩ := optFull_elim ha
    have hshape : ((x ++ '+' :: (u ++ [':'])) ++ (b ++ c)) ++ suf =
        x ++ '+' :: (u ++ ':' :: (b ++ (c ++ suf))) := by
      simp
    rw [hshape]
    unfold tryAt
    rw [matchOptionsAt_complete (b ++ (c ++ suf)) hx hxl hu hul]
    dsimp only
    have hep := matchEndpointAt_complete (c ++ suf) hb
    cases hepc : matchEndpointAt (b ++ (c ++ suf)) with
    | none =>
      rw [hepc] at hep
      exact absurd hep (by simp)
    | some p =>
      obtain ⟨e0, r0⟩ := p
      rfl

theorem tryAt_isSome_eq (cs : List Char) :
    (tryAt cs).isSome = anchoredMatch cs := by
  cases htry : tryAt cs with
  | some r =>
    rw [tryAt_sound htry]
    rfl
  | none =>
    cases hanc : anchoredMatch cs with
    | false => rfl
    | true =>
      have := tryAt_complete hanc
      rw [htry] at this
      exact absurd this (by simp)

theorem uriCaptures_isSome_eq (cs : List Char) :
    (uriCaptures cs).isSome = hasUriMatch cs := by
  induction cs with
  | nil => rfl
  | cons c rest ih =>
    rw [uriCaptures, hasUriMatch]
    cases htry : tryAt (c :: rest) with
    | some r =>
      have heq := tryAt_isSome_eq (c :: rest)
      rw [htry] at heq
      rw [← heq]
      rfl
    | none =>
      have heq := tryAt_isSome_eq (c :: rest)
      rw [htry] at heq
      rw [← heq]
      simpa using ih

theorem matchAltAt_sound {toks : List (List Char)} {cs tok rest : List Char}
    (h : matchAltAt toks cs = some (tok, rest)) :
    tok ∈ toks ∧ tok.isPrefixOf cs = true ∧ rest = cs.drop tok.length := by
  induction toks with
  | nil => exact absurd h (by simp [matchAltAt])
  | cons t ts ih =>
    rw [matchAltAt] at h
    by_cases hp : t.isPrefixOf cs = true
    · rw [if_pos hp] at h
      simp only [Option.some.injEq, Prod.mk.injEq] at h
      obtain ⟨rfl, rfl⟩ := h
      exact ⟨List.mem_cons_self _ _, hp, rfl⟩
    · rw [if_neg hp] at h
      obtain ⟨hm, hpre, hdrop⟩ := ih h
      exact ⟨List.mem_cons_of_mem _ hm, hpre, hdrop⟩

/-- No role token is a proper prefix of another role token. -/
theorem roleTokens_nonprefix :
    ∀ t1 ∈ roleTokens, ∀ t2 ∈ roleTokens,
      t1.isPrefixOf t2 = true → t1 = t2 := by decide

/-- No direction token is a proper prefix of another direction token. -/
theorem dirTokens_nonprefix :
    ∀ t1 ∈ dirTokens, ∀ t2 ∈ dirTokens,
      t1.isPrefixOf t2 = true → t1 = t2 := by decide

theorem matchAltAt_complete {toks : List (List Char)} {tok cs : List Char}
    (hmem : tok ∈ toks) (hpre : tok.isPrefixOf cs = true)
    (hnp : ∀ t1 ∈ toks, ∀ t2 ∈ toks, t1.isPrefixOf t2 = true → t1 = t2) :
    matchAltAt toks cs = some (tok, cs.drop tok.length) := by
  induction toks with
  | nil => exact absurd hmem (by simp)
  | cons t ts ih =>
    rw [matchAltAt]
    rw [List.mem_cons] at hmem
    by_cases hp : t.isPrefixOf cs = true
    · rw [if_pos hp]
      have ht : t = tok := by
        rcases hmem with rfl | hm
        · rfl
        · rcases isPrefixOf_comparable hp hpre with hcomp | hcomp
          · exact hnp t (List.mem_cons_self _ _) tok
              (List.mem_cons_of_mem _ hm) hcomp
          · exact (hnp tok (List.mem_cons_of_mem _ hm) t
              (List.mem_cons_self _ _) hcomp).symm
      rw [ht]
    · rw [if_neg hp]
      rcases hmem with rfl | hm
      · exact absurd hpre hp
      · exact ih hm
          (fun t1 h1 t2 h2 => hnp t1 (List.mem_cons_of_mem _ h1) t2
            (List.mem_cons_of_mem _ h2))

theorem optionsAt_some_token {cs role dir : List Char}
    (h : optionsAt cs = some (role, dir)) : optionsTokenAt cs = true := by
  unfold optionsAt at h
  cases hr : matchAltAt roleTokens cs with
  | none =>
    rw [hr] at h
    exact absurd h (by simp)
  | some p =>
    obtain ⟨role0, rest1⟩ := p
    rw [hr] at h
    dsimp only at h
    cases rest1 with
    | nil => exact absurd h (by simp)
    | cons c rest2 =>
      dsimp only at h
      by_cases hc : c = '+'
      case neg =>
        rw [if_neg hc] at h
        exact absurd h (by simp)
      rw [if_pos hc] at h
      subst hc
      cases hd : matchAltAt dirTokens rest2 with
      | none =>
        rw [hd] at h
        exact absurd h (by simp)
      | some q =>
        obtain ⟨dir0, rest3⟩ := q
        rw [hd] at h
        dsimp only at h
        cases rest3 with
        | nil => exact absurd h (by simp)
        | cons c2 rest5 =>
          dsimp only at h
          by_cases hc2 : c2 = ':'
          case neg =>
            rw [if_neg hc2] at h
            exact absurd h (by simp)
          rw [if_pos hc2] at h
          subst hc2
          simp only [Option.some.injEq, Prod.mk.injEq] at h
          obtain ⟨rfl, rfl⟩ := h
          obtain ⟨hmemR, hpreR, hdropR⟩ := matchAltAt_sound hr
          obtain ⟨hmemD, hpreD, hdropD⟩ := matchAltAt_sound hd
          rw [optionsTokenAt, List.any_eq_true]
          refine ⟨role0, hmemR, ?_⟩
          rw [List.any_eq_true]
          refine ⟨dir0, hmemD, ?_⟩
          rw [isPrefixOf_iff_exists]
          obtain ⟨t1, ht1⟩ := isPrefixOf_iff_exists.mp hpreR
          obtain ⟨t2, ht2⟩ := isPrefixOf_iff_exists.mp hpreD
          have hd1 : List.drop role0.length cs = t1 := by
            rw [← ht1, List.drop_left]
          have ht1eq : t1 = '+' :: rest2 := by
            rw [← hd1]
            exact hdropR.symm
          have hd2 : List.drop dir0.length rest2 = t2 := by
            rw [← ht2, List.drop_left]
          have ht2eq : t2 = ':' :: rest5 := by
            rw [← hd2]
            exact hdropD.symm
          refine ⟨rest5, ?_⟩
          rw [← ht1, ht1eq, ← ht2, ht2eq]
          simp

theorem optionsAt_isSome_of_token {cs : List Char}
    (h : optionsTokenAt cs = true) : (optionsAt cs).isSome = true := by
  rw [optionsTokenAt, List.any_eq_true] at h
  obtain ⟨r, hr, h2⟩ := h
  rw [List.any_eq_true] at h2
  obtain ⟨d, hd, hpre⟩ := h2
  obtain ⟨t, ht⟩ := isPrefixOf_iff_exists.mp hpre
  subst ht
  have hshape : (r ++ '+' :: (d ++ [':'])) ++ t =
      r ++ '+' :: (d ++ ':' :: t) := by simp
  rw [hshape]
  unfold optionsAt
  have hr1 : matchAltAt roleTokens (r ++ '+' :: (d ++ ':' :: t)) =
      some (r, '+' :: (d ++ ':' :: t)) := by
    have hc := matchAltAt_complete hr
      (isPrefixOf_self_append r ('+' :: (d ++ ':' :: t)))
      roleTokens_nonprefix
    rw [List.drop_left] at hc
    exact hc
  rw [hr1]
  dsimp only
  rw [if_pos rfl]
  have hr2 : matchAltAt dirTokens (d ++ ':' :: t) = some (d, ':' :: t) := by
    have hc := matchAltAt_complete hd
      (isPrefixOf_self_append d (':' :: t))
      dirTokens_nonprefix
    rw [List.drop_left] at hc
    exact hc
  rw [hr2]
  dsimp only
  rw [if_pos rfl]
  rfl

theorem optionsAt_isSome_eq (cs : List Char) :
    (optionsAt cs).isSome = optionsTokenAt cs := by
  cases ho : optionsAt cs with
  | some p =>
    obtain ⟨r, d⟩ := p
    rw [optionsAt_some_token ho]
    rfl
  | none =>
    cases hv : optionsTokenAt cs with
    | false => rfl
    | true =>
      have hs := optionsAt_isSome_of_token hv
      rw [ho] at hs
      exact absurd hs (by simp)

theorem optionsCaptures_isSome_eq (cs : List Char) :
    (optionsCaptures cs).isSome = hasOptionsMatch cs := by
  induction cs with
  | nil => rfl
  | cons c rest ih =>
    rw [optionsCaptures, hasOptionsMatch]
    cases ho : optionsAt (c :: rest) with
    | some r =>
      have heq := optionsAt_isSome_eq (c :: rest)
      rw [ho] at heq
      rw [← heq]
      rfl
    | none =>
      have heq := optionsAt_isSome_eq (c :: rest)
      rw [ho] at heq
      rw [← heq]
      simpa using ih

theorem optionsAt_mem {cs r d : List Char}
    (h : optionsAt cs = some (r, d)) : r ∈ roleTokens ∧ d ∈ dirTokens := by
  unfold optionsAt at h
  cases hr : matchAltAt roleTokens cs with
  | none =>
    rw [hr] at h
    exact absurd h (by simp)
  | some p =>
    obtain ⟨role0, rest1⟩ := p
    rw [hr] at h
    dsimp only at h
    cases rest1 with
    | nil => exact absurd h (by simp)
    | cons c rest2 =>
      dsimp only at h
      by_cases hc : c = '+'
      case neg =>
        rw [if_neg hc] at h
        exact absurd h (by simp)
      rw [if_pos hc] at h
      cases hd : matchAltAt dirTokens rest2 with
      | none =>
        rw [hd] at h
        exact absurd h (by simp)
      | some q =>
        obtain ⟨dir0, rest3⟩ := q
        rw [hd] at h
        dsimp only at h
        cases rest3 with
        | nil => exact absurd h (by simp)
        | cons c2 rest5 =>
          dsimp only at h
          by_cases hc2 : c2 = ':'
          case neg =>
            rw [if_neg hc2] at h
            exact absurd h (by simp)
          rw [if_pos hc2] at h
          simp only [Option.some.injEq, Prod.mk.injEq] at h
          obtain ⟨rfl, rfl⟩ := h
          exact ⟨(matchAltAt_sound hr).1, (matchAltAt_sound hd).1⟩

theorem optionsCaptures_mem {a r d : List Char}
    (h : optionsCaptures a = some (r, d)) :
    r ∈ roleTokens ∧ d ∈ dirTokens := by
  induction a with
  | nil => exact absurd h (by simp [optionsCaptures])
  | cons c rest ih =>
    rw [optionsCaptures] at h
    cases ho : optionsAt (c :: rest) with
    | some p =>
      rw [ho] at h
      simp only [Option.some.injEq] at h
      subst h
      exact optionsAt_mem ho
    | none =>
      rw [ho] at h
      exact ih h

/-- Every captured role token has a `socket_type` arm: the final
`_ => bail!("Unknown socket type")` arm is unreachable. -/
theorem roleTokens_socketType :
    ∀ r ∈ roleTokens, (socketTypeOfTok r).isSome = true := by decide

/-- Every captured direction token has a `bind` arm: the final
`_ => bail!("Unknown bind type")` arm is unreachable. -/
theorem dirTokens_bind :
    ∀ d ∈ dirTokens, (bindOfTok d).isSome = true := by decide

/-- C3 counterexample: `"Xtcp://host"` does not match the URI grammar as
a whole — the grammar match `"tcp://host"` occurs only as a proper
substring after leading garbage — yet `parse_zmq_socket_uri` succeeds on
it, because `Regex::captures` performs an unanchored substring search.
This refutes "parse succeeds iff the string matches the grammar as a
whole". -/
theorem c3_unanchored_counterexample :
    (parse_zmq_socket_uri "Xtcp://host".toList).isOk = true ∧
    wholeMatch "Xtcp://host".toList = false := by
  refine ⟨?_, ?_⟩ <;> decide

/-- C3 amended: `parse_zmq_socket_uri u` succeeds iff the unanchored
leftmost-first search finds a match of the grammar in `u` and, in the
captures of that match, a present options capture contains a
`role+direction:` token and a present tail implies the captured role is
a writer role.  The second conjunct is the refinement link: the code's
search finds a match exactly when some substring of `u` matches the
spec's grammar `([a-z]+\+[a-z]+:)?((tcp|ipc)://[^:]+)(:.+)?` as a
whole. -/
theorem c3_parse_success_iff (u : List Char) :
    ((parse_zmq_socket_uri u).isOk = true ↔
      (∃ o e t, uriCaptures u = some (o, e, t) ∧
        (∀ a, o = some a → (optionsCaptures a).isSome = true) ∧
        (t.isSome = true → ∃ a r d, o = some a ∧
          optionsCaptures a = some (r, d) ∧
          (∃ w, socketTypeOfTok r = some (.Writer w))))) ∧
    (uriCaptures u).isSome = hasUriMatch u := by
  refine ⟨?_, uriCaptures_isSome_eq u⟩
  unfold parse_zmq_socket_uri
  cases hcap : uriCaptures u with
  | none =>
    dsimp only
    constructor
    · intro hok
      exact absurd hok (by decide)
    · rintro ⟨o, e, t, heq, -, -⟩
      exact absurd heq (by simp)
  | some cap =>
    obtain ⟨o, e, t⟩ := cap
    cases o with
    | none =>
      cases t with
      | none =>
        dsimp only
        constructor
        · intro _
          exact ⟨none, e, none, rfl, by simp, by simp⟩
        · intro _
          rfl
      | some tl =>
        dsimp only
        constructor
        · intro hok
          exact absurd hok (by decide)
        · rintro ⟨o', e', t', heq, -, htail⟩
          simp only [Option.some.injEq, Prod.mk.injEq] at heq
          obtain ⟨ho', -, ht'⟩ := heq
          obtain ⟨a, r, d, ha, -, -⟩ := htail (by rw [← ht']; rfl)
          rw [← ho'] at ha
          exact absurd ha (by simp)
    | some opts =>
      dsimp only
      cases hoc : optionsCaptures opts with
      | none =>
        dsimp only
        constructor
        · intro hok
          exact absurd hok (by decide)
        · rintro ⟨o', e', t', heq, hopts, -⟩
          simp only [Option.some.injEq, Prod.mk.injEq] at heq
          obtain ⟨ho', -, -⟩ := heq
          have hso := hopts opts (by rw [← ho'])
          rw [hoc] at hso
          exact absurd hso (by simp)
      | some rd =>
        obtain ⟨r, d⟩ := rd
        obtain ⟨hrmem, hdmem⟩ := optionsCaptures_mem hoc
        obtain ⟨st, hst⟩ :=
          Option.isSome_iff_exists.mp (roleTokens_socketType r hrmem)
        obtain ⟨b, hb⟩ :=
          Option.isSome_iff_exists.mp (dirTokens_bind d hdmem)
        dsimp only
        rw [hst, hb]
        dsimp only
        cases t with
        | none =>
          constructor
          · intro _
            refine ⟨some opts, e, none, rfl, ?_, by simp⟩
            intro a ha
            simp only [Option.some.injEq] at ha
            subst ha
            rw [hoc]
            rfl
          · intro _
            rfl
        | some tl =>
          cases st with
          | Writer w =>
            dsimp only
            constructor
            · intro _
              refine ⟨some opts, e, some tl, rfl, ?_, ?_⟩
              · intro a ha
                simp only [Option.some.injEq] at ha
                subst ha
                rw [hoc]
                rfl
              · intro _
                exact ⟨opts, r, d, rfl, hoc, w, hst⟩
            · intro _
              rfl
          | Reader rr =>
            dsimp only
            constructor
            · intro hok
              exact absurd hok (by decide)
            · rintro ⟨o', e', t', heq, -, htail⟩
              simp only [Option.some.injEq, Prod.mk.injEq] at heq
              obtain ⟨ho', -, ht'⟩ := heq
              obtain ⟨a, r', d', ha, hoc', w, hstw⟩ :=
                htail (by rw [← ht']; rfl)
              rw [← ho'] at ha
              simp only [Option.some.injEq] at ha
              subst ha
              rw [hoc] at hoc'
              simp only [Option.some.injEq, Prod.mk.injEq] at hoc'
              obtain ⟨rfl, -⟩ := hoc'
              rw [hst] at hstw
              exact absurd hstw (by simp)

/-- Witness for C3's amended characterization at the concrete input
`"pub+bind:tcp://address"`. -/
theorem c3_parse_success_iff_witness :
    ((parse_zmq_socket_uri "pub+bind:tcp://address".toList).isOk = true ↔
      (∃ o e t, uriCaptures "pub+bind:tcp://address".toList = some (o, e, t) ∧
        (∀ a, o = some a → (optionsCaptures a).isSome = true) ∧
        (t.isSome = true → ∃ a r d, o = some a ∧
          optionsCaptures a = some (r, d) ∧
          (∃ w, socketTypeOfTok r = some (.Writer w))))) ∧
    (uriCaptures "pub+bind:tcp://address".toList).isSome =
      hasUriMatch "pub+bind:tcp://address".toList :=
  c3_parse_success_iff "pub+bind:tcp://address".toList

/-- C4 counterexample: an options segment `"xpub+bind:"` is not rejected:
`parse_zmq_socket_uri "xpub+bind:tcp://address"` succeeds and reports the
role `pub` with `bind = true`, because `SOCKET_OPTIONS_PATTERN` is
searched unanchored inside the captured segment and matches its suffix
`"pub+bind:"`.  This refutes "fails for every role token outside the
six-token set". -/
theorem c4_xpub_accepted_counterexample :
    parse_zmq_socket_uri "xpub+bind:tcp://address".toList =
      .ok ⟨"tcp://address".toList, none, some true,
        some (.Writer .Pub)⟩ := by rfl

/-- C4 amended: an options capture is accepted exactly when it contains
a substring matching `(pub|sub|req|rep|dealer|router)\+(bind|connect):`
— so segments with no such substring (`foo+bind:`, `pub+foo:`) fail
with an error, while a segment merely containing a valid token pair
(`xpub+bind:`) is accepted as that role rather than rejected. -/
theorem c4_options_matching (o : List Char) :
    ((optionsCaptures o).isSome = hasOptionsMatch o) ∧
    (parse_zmq_socket_uri "foo+bind:tcp://address".toList).isOk = false ∧
    (parse_zmq_socket_uri "pub+foo:tcp://address".toList).isOk = false ∧
    (parse_zmq_socket_uri "xpub+bind:tcp://address".toList).isOk = true := by
  exact ⟨optionsCaptures_isSome_eq o, by decide, by decide, by decide⟩

/-- Witness for C4's amended characterization at the segment
`"xpub+bind:"`. -/
theorem c4_options_matching_witness :
    ((optionsCaptures "xpub+bind:".toList).isSome =
      hasOptionsMatch "xpub+bind:".toList) ∧
    (parse_zmq_socket_uri "foo+bind:tcp://address".toList).isOk = false ∧
    (parse_zmq_socket_uri "pub+foo:tcp://address".toList).isOk = false ∧
    (parse_zmq_socket_uri "xpub+bind:tcp://address".toList).isOk = true :=
  c4_options_matching "xpub+bind:".toList

end SavantZmq
